import Mathlib

/-
Verification of the musicdiff core: the annotation data model, the
symbol-cost model (from symbols.txt), the generic dynamic-programming
alignment engine, the diff orchestration, and the SER computation.

The Python implementation files are not available; all executable
definitions below are modelled from the repository specification
(spec.md), from symbols.txt (the authoritative symbol-count and
symbolic-edit-cost documentation), from ReleaseNotes_4.1.0.txt, and
from the command-line test fixtures in tests/.

Encoding conventions used throughout:
- machine numbers are Nat (all costs and sizes are nonnegative integers);
- horizontal positions (offsets, beats) are encoded in tenths of a
  quarter-note beat, so the printed "beat 2.5" is beatTenths = 25;
- strings are Lean Strings; Levenshtein distance works on s.data.
-/

namespace MusicDiff

/-- One step of an alignment script between two ordered sequences:
matching a pair of elements, inserting an element of the second
sequence, or deleting an element of the first sequence. -/
inductive EditStep (α : Type) where
  | pair (a b : α)
  | ins (b : α)
  | del (a : α)

/-- Cost of a single alignment step, given the per-pair cost function
and the size function: a match costs pairCost a b, an insert costs
size b, a delete costs size a.  Modelled from the spec (section 4.3). -/
def stepCost (pc : α → α → Nat) (sz : α → Nat) : EditStep α → Nat
  | .pair a b => pc a b
  | .ins b => sz b
  | .del a => sz a

/-- Total cost of an alignment script: the sum of its step costs. -/
def scriptCost (pc : α → α → Nat) (sz : α → Nat) (ops : List (EditStep α)) : Nat :=
  (ops.map (stepCost pc sz)).sum

/-- The relation: the operation sequence ops transforms sequence as
into sequence bs, consuming both in order. -/
inductive Aligns : List (EditStep α) → List α → List α → Prop where
  | nil : Aligns [] [] []
  | pair {ops : List (EditStep α)} {as bs : List α} (a b : α) :
      Aligns ops as bs → Aligns (.pair a b :: ops) (a :: as) (b :: bs)
  | del {ops : List (EditStep α)} {as bs : List α} (a : α) :
      Aligns ops as bs → Aligns (.del a :: ops) (a :: as) bs
  | ins {ops : List (EditStep α)} {as bs : List α} (b : α) :
      Aligns ops as bs → Aligns (.ins b :: ops) as (b :: bs)

/-- Inner loop of the DP recurrence: the row for a fixed head element
a, given the solved row h for the remaining left elements. -/
def alignCostGo (pc : α → α → Nat) (sz : α → Nat) (a : α) (h : List α → Nat) :
    List α → Nat
  | [] => sz a + h []
  | b :: bs =>
      min (pc a b + h bs)
        (min (sz b + alignCostGo pc sz a h bs) (sz a + h (b :: bs)))

/-- Modelled from the spec (section 4.3, the Alignment Engine, whose
implementation file is missing from src): the classic edit-distance
dynamic-programming recurrence over two ordered sequences, with a
match between a and b costing pairCost a b, an insert of b costing
size b, and a delete of a costing size a.  Written as a nested
structural recursion; the usual recurrence equations are proved just
below. -/
def alignCost (pc : α → α → Nat) (sz : α → Nat) : List α → List α → Nat
  | [], bs => (bs.map sz).sum
  | a :: as, bs => alignCostGo pc sz a (alignCost pc sz as) bs

/-- Modelled from the spec (section 4.3): the operation sequence the
aligner reports.  Ties are broken preferring match (the spec: equal
cost ties prefer match), then insert. -/
def alignSteps (pc : α → α → Nat) (sz : α → Nat) : List α → List α → List (EditStep α)
  | [], [] => []
  | [], b :: bs => .ins b :: alignSteps pc sz [] bs
  | a :: as, [] => .del a :: alignSteps pc sz as []
  | a :: as, b :: bs =>
      if pc a b + alignCost pc sz as bs ≤ sz b + alignCost pc sz (a :: as) bs ∧
          pc a b + alignCost pc sz as bs ≤ sz a + alignCost pc sz as (b :: bs) then
        .pair a b :: alignSteps pc sz as bs
      else if sz b + alignCost pc sz (a :: as) bs ≤ sz a + alignCost pc sz as (b :: bs) then
        .ins b :: alignSteps pc sz (a :: as) bs
      else
        .del a :: alignSteps pc sz as (b :: bs)
termination_by as bs => as.length + bs.length

/-- Levenshtein distance between two lists, realized as the generic
aligner with unit substitution cost and unit element sizes (the spec,
section 4.1: free-text and ordered attribute collections cost the
Levenshtein distance; size is the length). -/
def lev [DecidableEq β] (xs ys : List β) : Nat :=
  alignCost (fun a b => if a = b then 0 else 1) (fun _ => 1) xs ys

/-- Levenshtein distance between two strings. -/
def levStr (s t : String) : Nat := lev s.data t.data

/-- Position anchor carried by every reported operation: measure
number, staff number, and beat offset in tenths of a beat (so the
printed beat 2.5 is 25). -/
structure Anchor where
  measureNum : Nat
  staffNum : Nat
  beatTenths : Nat
deriving DecidableEq, Repr

/-- An emitted edit operation: an operation name (as in the Python
operation tuples, e.g. insbar, delbar, lyrtext), its symbolic cost,
and its position anchor. -/
structure EditOp where
  opName : String
  cost : Nat
  anchor : Anchor
deriving DecidableEq, Repr

/-- Modelled from the spec (section 4.3): the aligner emitting edit
operations.  A matched pair contributes the operations of the
recursive comparison of that pair, an insert or delete contributes one
operation for the surplus entity.  The branch taken follows the DP
cost, preferring match on cost ties (spec: equal-cost ties prefer
match), then insert. -/
def alignWithGo (pairOps : α → α → List EditOp) (insOp delOp : α → EditOp)
    (pc : α → α → Nat) (sz : α → Nat) (a : α)
    (wrec : List α → List EditOp) (crec : List α → Nat) : List α → List EditOp
  | [] => delOp a :: wrec []
  | b :: bs =>
      if pc a b + crec bs ≤ sz b + alignCostGo pc sz a crec bs ∧
          pc a b + crec bs ≤ sz a + crec (b :: bs) then
        pairOps a b ++ wrec bs
      else if sz b + alignCostGo pc sz a crec bs ≤ sz a + crec (b :: bs) then
        insOp b :: alignWithGo pairOps insOp delOp pc sz a wrec crec bs
      else
        delOp a :: wrec (b :: bs)

def alignWith (pairOps : α → α → List EditOp) (insOp delOp : α → EditOp)
    (pc : α → α → Nat) (sz : α → Nat) : List α → List α → List EditOp
  | [], bs => bs.map insOp
  | a :: as, bs =>
      alignWithGo pairOps insOp delOp pc sz a
        (alignWith pairOps insOp delOp pc sz as) (alignCost pc sz as) bs

/-- 1 if the flag is set (one notation symbol), else 0. -/
def boolSym (b : Bool) : Nat := if b then 1 else 0

/-- 1 if the optional attribute is present, else 0. -/
def optSym (o : Option Nat) : Nat := if o.isSome then 1 else 0

/-- Cost 1 when two scalar values differ (add or toggle a property,
per symbols.txt). -/
def d1 [DecidableEq β] (x y : β) : Nat := if x = y then 0 else 1

/-- Cost 2 when two scalar values differ (replace a property: a delete
then an add, per symbols.txt). -/
def d2 [DecidableEq β] (x y : β) : Nat := if x = y then 0 else 2

/-- Cost of editing an optional attribute: 1 to add or delete it, 2 to
change its value (delete then add), per symbols.txt. -/
def optChange : Option Nat → Option Nat → Nat
  | none, none => 0
  | some _, none => 1
  | none, some _ => 1
  | some x, some y => if x = y then 0 else 2

/-- Number of counters added or deleted to turn x into y (symbols.txt,
for example: 1 for each dot added or deleted). -/
def natChange (x y : Nat) : Nat := (x - y) + (y - x)

/-- Modelled from the spec (section 3, AnnNote pitch entries): one
note head of a note or chord: vertical line/space position, optional
accidental, tie-start flag. -/
structure NoteHead where
  pitch : Nat
  accid : Option Nat
  tieStart : Bool
deriving DecidableEq, Repr

/-- Modelled from the spec (section 3) and symbols.txt (AnnNote): a
rest, note, or chord with its visual decoration attributes.  The
offset is the horizontal position inside the measure in beat tenths. -/
structure AnnNote where
  offset : Nat
  heads : List NoteHead
  headType : Nat
  dots : Nat
  graceType : Nat
  graceSlash : Bool
  beams : List Nat
  tupletRatios : List Nat
  tupletInfos : List Nat
  articulations : List Nat
  expressions : List Nat
  headShape : Option Nat
  headFill : Option Nat
  headParens : Bool
  stemDir : Option Nat
  spaceBefore : Bool
  styled : Bool
deriving DecidableEq, Repr

/-- symbols.txt, AnnNote symbol count, per note head: 1 symbol for the
pitch, 1 if there is an accidental, 1 if a tie starts on the note. -/
def NoteHead.notationSize (h : NoteHead) : Nat :=
  1 + optSym h.accid + boolSym h.tieStart

/-- symbols.txt, AnnNote symbol count: head symbols plus 1 for the
note head type, 1 per dot, 1 per flag or beam, 1 per enclosing tuplet
and per tuplet style, 1 per articulation and expression, 1 for a grace
note (plus 1 for its slash), 1 each for abnormal head shape, head
fill, head parentheses, specified stem direction, space before, and
any style. -/
def AnnNote.notationSize (n : AnnNote) : Nat :=
  (n.heads.map NoteHead.notationSize).sum
  + 1 + n.dots + n.beams.length + n.tupletRatios.length + n.tupletInfos.length
  + n.articulations.length + n.expressions.length
  + (if n.graceType ≠ 0 then 1 + boolSym n.graceSlash else 0)
  + optSym n.headShape + optSym n.headFill + boolSym n.headParens
  + optSym n.stemDir + boolSym n.spaceBefore + boolSym n.styled

/-- symbols.txt, AnnNote diff, per note head: a pitch diff is 2
symbols (delete then add, available when Voicing is on), an accidental
edit is 1 per accidental added or deleted, a tie-start diff is 1. -/
def NoteHead.pairCost (a b : NoteHead) : Nat :=
  d2 a.pitch b.pitch + optChange a.accid b.accid + d1 a.tieStart b.tieStart

/-- Head lists of two compared notes, paired in order; surplus heads
on either side are inserted or deleted at their own size. -/
def headsDiff : List NoteHead → List NoteHead → Nat
  | [], bs => (bs.map NoteHead.notationSize).sum
  | a :: as, [] => a.notationSize + headsDiff as []
  | a :: as, b :: bs => a.pairCost b + headsDiff as bs

/-- symbols.txt, AnnNote diff: the per-aspect edit costs of two
compared notes, excluding the head (pitch/accidental/tie) part. -/
def AnnNote.aspectsCost (a b : AnnNote) : Nat :=
  d2 a.headType b.headType
  + natChange a.dots b.dots
  + d2 a.graceType b.graceType
  + d1 a.graceSlash b.graceSlash
  + lev a.beams b.beams
  + (lev a.tupletRatios b.tupletRatios + lev a.tupletInfos b.tupletInfos)
  + lev a.articulations b.articulations
  + lev a.expressions b.expressions
  + d2 a.headShape b.headShape
  + d1 a.headFill b.headFill
  + d1 a.headParens b.headParens
  + d1 a.spaceBefore b.spaceBefore
  + optChange a.stemDir b.stemDir
  + d1 a.styled b.styled

/-- Note pair cost when Voicing is on: head pitches may substitute at
cost 2 each, plus all aspect costs. -/
def AnnNote.pairCostVoiced (a b : AnnNote) : Nat :=
  headsDiff a.heads b.heads + a.aspectsCost b

/-- The positional gate for unvoiced note comparison (symbols.txt: we
only compare notes that have the same line/space and offset). -/
def AnnNote.samePos (a b : AnnNote) : Prop :=
  a.offset = b.offset ∧ a.heads.map NoteHead.pitch = b.heads.map NoteHead.pitch

instance (a b : AnnNote) : Decidable (a.samePos b) := by
  unfold AnnNote.samePos; infer_instance

/-- Note pair cost when Voicing is off: notes at the same position
compare aspect by aspect; any other pair is a pure delete plus insert
at the notes' own sizes. -/
def AnnNote.pairCostFlat (a b : AnnNote) : Nat :=
  if a.samePos b then headsDiff a.heads b.heads + a.aspectsCost b
  else a.notationSize + b.notationSize

/-- One reported operation per differing aspect of a matched pair:
nothing when the aspect cost is 0, one operation carrying that cost
otherwise (this is how the text report lists one substitution block
per differing aspect, see tests/expected output). -/
def costOp (nm : String) (an : Anchor) (c : Nat) : List EditOp :=
  if c = 0 then [] else [⟨nm, c, an⟩]

def AnnNote.insEditOp (staff mn : Nat) (b : AnnNote) : EditOp :=
  ⟨"noteins", b.notationSize, ⟨mn, staff, b.offset⟩⟩

def AnnNote.delEditOp (staff mn : Nat) (a : AnnNote) : EditOp :=
  ⟨"notedel", a.notationSize, ⟨mn, staff, a.offset⟩⟩

/-- Operations of a matched note pair: one operation per differing
aspect, anchored at the second (ground-truth side) note's position. -/
def AnnNote.aspectOps (an : Anchor) (a b : AnnNote) : List EditOp :=
  costOp "pitch" an (headsDiff a.heads b.heads) ++
  costOp "notehead" an (d2 a.headType b.headType) ++
  costOp "dots" an (natChange a.dots b.dots) ++
  costOp "grace" an (d2 a.graceType b.graceType) ++
  costOp "graceslash" an (d1 a.graceSlash b.graceSlash) ++
  costOp "flagsbeams" an (lev a.beams b.beams) ++
  costOp "tuplet" an (lev a.tupletRatios b.tupletRatios + lev a.tupletInfos b.tupletInfos) ++
  costOp "artic" an (lev a.articulations b.articulations) ++
  costOp "expr" an (lev a.expressions b.expressions) ++
  costOp "headshape" an (d2 a.headShape b.headShape) ++
  costOp "headfill" an (d1 a.headFill b.headFill) ++
  costOp "headparens" an (d1 a.headParens b.headParens) ++
  costOp "spacebefore" an (d1 a.spaceBefore b.spaceBefore) ++
  costOp "stemdir" an (optChange a.stemDir b.stemDir) ++
  costOp "style" an (d1 a.styled b.styled)

/-- Operations of a matched note pair, Voicing on. -/
def AnnNote.pairOpsVoiced (staff mn : Nat) (a b : AnnNote) : List EditOp :=
  AnnNote.aspectOps ⟨mn, staff, b.offset⟩ a b

/-- Operations of a compared note pair, Voicing off: positionally
matched notes compare aspect by aspect, others are a delete plus an
insert. -/
def AnnNote.pairOpsFlat (staff mn1 mn2 : Nat) (a b : AnnNote) : List EditOp :=
  if a.samePos b then AnnNote.aspectOps ⟨mn2, staff, b.offset⟩ a b
  else [a.delEditOp staff mn1, b.insEditOp staff mn2]

/-- Modelled from the spec (section 3) and symbols.txt: the non-note
objects of a measure as a tagged union; a representative subset of the
variants (clef, barline, chord symbol, direction, dynamic), each with
the fields symbols.txt costs.  Every variant carries its beat offset. -/
inductive AnnExtra where
  | clef (offset : Nat) (sign : Nat) (styled : Bool)
  | barline (offset : Nat) (btype : Nat) (repeatDir : Option Nat)
      (repeatCount : Option Nat) (fermata : Option Nat) (fermataShape : Option Nat)
  | chordsym (offset : Nat) (cname : Nat) (styled : Bool)
  | direction (offset : Nat) (text : String) (styled : Bool)
  | dynamic (offset : Nat) (dname : Nat) (styled : Bool)
deriving DecidableEq, Repr

def AnnExtra.offset : AnnExtra → Nat
  | .clef o _ _ => o
  | .barline o _ _ _ _ _ => o
  | .chordsym o _ _ => o
  | .direction o _ _ => o
  | .dynamic o _ _ => o

/-- Variant kind index, used to segment extras before alignment (the
spec: a clef is never matched against a dynamic). -/
def AnnExtra.kindIdx : AnnExtra → Nat
  | .clef _ _ _ => 0
  | .barline _ _ _ _ _ _ => 1
  | .chordsym _ _ _ => 2
  | .direction _ _ _ => 3
  | .dynamic _ _ _ => 4

/-- symbols.txt, per-variant symbol counts: clef 1 plus 1 if styled;
barline 1 for a non-regular type plus 1 each for repeat direction,
repeat count, fermata, and non-normal fermata shape; chordsym 1 for
the name plus 1 if styled; direction text length plus 1 if styled;
dynamic 1 for the name plus 1 if styled. -/
def AnnExtra.notationSize : AnnExtra → Nat
  | .clef _ _ st => 1 + boolSym st
  | .barline _ bt rd rc f fs =>
      (if bt ≠ 0 then 1 else 0) + optSym rd + optSym rc + optSym f + optSym fs
  | .chordsym _ _ st => 1 + boolSym st
  | .direction _ tx st => tx.length + boolSym st
  | .dynamic _ _ st => 1 + boolSym st

/-- symbols.txt, per-variant diff costs: clef diff 1 and style diff 1;
barline type diff 2, repeat direction diff 2, repeat count diff 2,
fermata diff 1 to add or delete and 2 to change, same for the shape;
chordsym name diff 2 and style diff 1; direction text diff is the
Levenshtein distance and style diff 1; dynamic name diff 2 and style
diff 1.  Extras of different kinds are never matched: their pair cost
is the sum of their sizes. -/
def AnnExtra.pairCost : AnnExtra → AnnExtra → Nat
  | .clef _ s1 st1, .clef _ s2 st2 => d1 s1 s2 + d1 st1 st2
  | .barline _ bt1 rd1 rc1 f1 fs1, .barline _ bt2 rd2 rc2 f2 fs2 =>
      d2 bt1 bt2 + d2 rd1 rd2 + d2 rc1 rc2 + optChange f1 f2 + optChange fs1 fs2
  | .chordsym _ n1 st1, .chordsym _ n2 st2 => d2 n1 n2 + d1 st1 st2
  | .direction _ t1 st1, .direction _ t2 st2 => levStr t1 t2 + d1 st1 st2
  | .dynamic _ n1 st1, .dynamic _ n2 st2 => d2 n1 n2 + d1 st1 st2
  | a, b => a.notationSize + b.notationSize

def AnnExtra.insEditOp (staff mn : Nat) (b : AnnExtra) : EditOp :=
  ⟨"extrains", b.notationSize, ⟨mn, staff, b.offset⟩⟩

def AnnExtra.delEditOp (staff mn : Nat) (a : AnnExtra) : EditOp :=
  ⟨"extradel", a.notationSize, ⟨mn, staff, a.offset⟩⟩

/-- Operations of a matched extra pair: one operation per differing
field, anchored at the second extra's position. -/
def AnnExtra.pairOps (staff mn : Nat) : AnnExtra → AnnExtra → List EditOp
  | .clef _ s1 st1, .clef o2 s2 st2 =>
      costOp "clefsign" ⟨mn, staff, o2⟩ (d1 s1 s2) ++
      costOp "clefstyle" ⟨mn, staff, o2⟩ (d1 st1 st2)
  | .barline _ bt1 rd1 rc1 f1 fs1, .barline o2 bt2 rd2 rc2 f2 fs2 =>
      costOp "barlinetype" ⟨mn, staff, o2⟩ (d2 bt1 bt2) ++
      costOp "barlinerepeatdir" ⟨mn, staff, o2⟩ (d2 rd1 rd2) ++
      costOp "barlinerepeatcount" ⟨mn, staff, o2⟩ (d2 rc1 rc2) ++
      costOp "barlinefermata" ⟨mn, staff, o2⟩ (optChange f1 f2) ++
      costOp "barlinefermatashape" ⟨mn, staff, o2⟩ (optChange fs1 fs2)
  | .chordsym _ n1 st1, .chordsym o2 n2 st2 =>
      costOp "chordsymname" ⟨mn, staff, o2⟩ (d2 n1 n2) ++
      costOp "chordsymstyle" ⟨mn, staff, o2⟩ (d1 st1 st2)
  | .direction _ t1 st1, .direction o2 t2 st2 =>
      costOp "directiontext" ⟨mn, staff, o2⟩ (levStr t1 t2) ++
      costOp "directionstyle" ⟨mn, staff, o2⟩ (d1 st1 st2)
  | .dynamic _ n1 st1, .dynamic o2 n2 st2 =>
      costOp "dynamicname" ⟨mn, staff, o2⟩ (d2 n1 n2) ++
      costOp "dynamicstyle" ⟨mn, staff, o2⟩ (d1 st1 st2)
  | a, b => [a.delEditOp staff mn, b.insEditOp staff mn]

/-- Modelled from the spec (section 3) and symbols.txt: one lyric
syllable or word. -/
structure AnnLyric where
  offset : Nat
  text : String
  verseNum : Option Nat
  verseId : Option Nat
  styled : Bool
deriving DecidableEq, Repr

/-- symbols.txt, AnnLyric symbol count: text length, 1 for the offset,
1 if there is a verse number, 1 if there is a separate verse
identifier, 1 if styled. -/
def AnnLyric.notationSize (l : AnnLyric) : Nat :=
  l.text.length + 1 + optSym l.verseNum + optSym l.verseId + boolSym l.styled

/-- symbols.txt, AnnLyric diff: text diff is the Levenshtein distance,
verse number diff 2, verse identifier diff 1 to add or delete and 2 to
change, offset diff 1, style diff 1. -/
def AnnLyric.pairCost (a b : AnnLyric) : Nat :=
  levStr a.text b.text + d2 a.verseNum b.verseNum + optChange a.verseId b.verseId
  + d1 a.offset b.offset + d1 a.styled b.styled

def AnnLyric.insEditOp (staff mn : Nat) (b : AnnLyric) : EditOp :=
  ⟨"lyrins", b.notationSize, ⟨mn, staff, b.offset⟩⟩

def AnnLyric.delEditOp (staff mn : Nat) (a : AnnLyric) : EditOp :=
  ⟨"lyrdel", a.notationSize, ⟨mn, staff, a.offset⟩⟩

/-- Operations of a matched lyric pair, one per differing field. -/
def AnnLyric.pairOps (staff mn : Nat) (a b : AnnLyric) : List EditOp :=
  costOp "lyrtext" ⟨mn, staff, b.offset⟩ (levStr a.text b.text) ++
  costOp "lyrnum" ⟨mn, staff, b.offset⟩ (d2 a.verseNum b.verseNum) ++
  costOp "lyrid" ⟨mn, staff, b.offset⟩ (optChange a.verseId b.verseId) ++
  costOp "lyroffset" ⟨mn, staff, b.offset⟩ (d1 a.offset b.offset) ++
  costOp "lyrstyle" ⟨mn, staff, b.offset⟩ (d1 a.styled b.styled)

/-- Modelled from the spec (section 3): a voice, an ordered sequence
of notes; present only when Voicing is requested. -/
structure AnnVoice where
  notes : List AnnNote
deriving DecidableEq, Repr

/-- symbols.txt: sum of the symbols of all the AnnNotes in the voice. -/
def AnnVoice.notationSize (v : AnnVoice) : Nat :=
  v.notes.foldl (fun acc n => acc + n.notationSize) 0

/-- symbols.txt: the symbolic edits due to the notes in the voice,
through the DP aligner with the voiced note costs. -/
def AnnVoice.pairCost (a b : AnnVoice) : Nat :=
  alignCost AnnNote.pairCostVoiced AnnNote.notationSize a.notes b.notes

def AnnVoice.insEditOp (staff mn : Nat) (b : AnnVoice) : EditOp :=
  ⟨"voiceins", b.notationSize, ⟨mn, staff, 10⟩⟩

def AnnVoice.delEditOp (staff mn : Nat) (a : AnnVoice) : EditOp :=
  ⟨"voicedel", a.notationSize, ⟨mn, staff, 10⟩⟩

def AnnVoice.pairOps (staff mn1 mn2 : Nat) (a b : AnnVoice) : List EditOp :=
  alignWith (AnnNote.pairOpsVoiced staff mn2) (AnnNote.insEditOp staff mn2)
    (AnnNote.delEditOp staff mn1) AnnNote.pairCostVoiced AnnNote.notationSize
    a.notes b.notes

/-- A measure owns either a flattened ordered sequence of notes
(Voicing off) or an ordered sequence of voices (Voicing on); the spec,
section 3, AnnMeasure. -/
inductive MeasureContent where
  | flat (notes : List AnnNote)
  | voiced (voices : List AnnVoice)
deriving DecidableEq, Repr

def MeasureContent.notationSize : MeasureContent → Nat
  | .flat ns => ns.foldl (fun acc n => acc + n.notationSize) 0
  | .voiced vs => vs.foldl (fun acc v => acc + v.notationSize) 0

/-- Cost of comparing two measures' note content: flat lists align
with the positionally gated note costs, voiced lists align voices with
the DP aligner; mismatched shapes (never produced under one filter)
are a full delete plus insert. -/
def MeasureContent.pairCost : MeasureContent → MeasureContent → Nat
  | .flat ns1, .flat ns2 => alignCost AnnNote.pairCostFlat AnnNote.notationSize ns1 ns2
  | .voiced vs1, .voiced vs2 => alignCost AnnVoice.pairCost AnnVoice.notationSize vs1 vs2
  | c1, c2 => c1.notationSize + c2.notationSize

def MeasureContent.pairOps (staff mn1 mn2 : Nat) : MeasureContent → MeasureContent → List EditOp
  | .flat ns1, .flat ns2 =>
      alignWith (AnnNote.pairOpsFlat staff mn1 mn2) (AnnNote.insEditOp staff mn2)
        (AnnNote.delEditOp staff mn1) AnnNote.pairCostFlat AnnNote.notationSize ns1 ns2
  | .voiced vs1, .voiced vs2 =>
      alignWith (AnnVoice.pairOps staff mn1 mn2) (AnnVoice.insEditOp staff mn2)
        (AnnVoice.delEditOp staff mn1) AnnVoice.pairCost AnnVoice.notationSize vs1 vs2
  | c1, c2 => [⟨"contentdel", c1.notationSize, ⟨mn1, staff, 10⟩⟩,
      ⟨"contentins", c2.notationSize, ⟨mn2, staff, 10⟩⟩]

/-- Modelled from the spec (section 3): a measure: its printed measure
number (used for anchors), its note content, its extras, its lyrics. -/
structure AnnMeasure where
  mNum : Nat
  content : MeasureContent
  extras : List AnnExtra
  lyrics : List AnnLyric
deriving DecidableEq, Repr

/-- symbols.txt, AnnMeasure symbol count: the sum of the symbol counts
of all its notes (or voices), extras, and lyrics. -/
def AnnMeasure.notationSize (m : AnnMeasure) : Nat :=
  m.content.notationSize
  + m.extras.foldl (fun acc e => acc + e.notationSize) 0
  + m.lyrics.foldl (fun acc l => acc + l.notationSize) 0

/-- One of the five extras kinds, filtered out of a measure's extras
list: the segmented alignment never matches different kinds. -/
def kindSegment (k : Nat) (es : List AnnExtra) : List AnnExtra :=
  es.filter (fun e => e.kindIdx = k)

/-- Extras costs, segmented by kind and DP-aligned per segment. -/
def extrasSegCost (es fs : List AnnExtra) (k : Nat) : Nat :=
  alignCost AnnExtra.pairCost AnnExtra.notationSize (kindSegment k es) (kindSegment k fs)

def extrasCost (es fs : List AnnExtra) : Nat :=
  extrasSegCost es fs 0 + extrasSegCost es fs 1 + extrasSegCost es fs 2
  + extrasSegCost es fs 3 + extrasSegCost es fs 4

def extrasSegOps (staff mn1 mn2 : Nat) (es fs : List AnnExtra) (k : Nat) : List EditOp :=
  alignWith (AnnExtra.pairOps staff mn2) (AnnExtra.insEditOp staff mn2)
    (AnnExtra.delEditOp staff mn1) AnnExtra.pairCost AnnExtra.notationSize
    (kindSegment k es) (kindSegment k fs)

def extrasOps (staff mn1 mn2 : Nat) (es fs : List AnnExtra) : List EditOp :=
  extrasSegOps staff mn1 mn2 es fs 0 ++ extrasSegOps staff mn1 mn2 es fs 1
  ++ extrasSegOps staff mn1 mn2 es fs 2 ++ extrasSegOps staff mn1 mn2 es fs 3
  ++ extrasSegOps staff mn1 mn2 es fs 4

/-- symbols.txt, AnnMeasure diff: sum of the symbolic edits of all the
objects in the measure (content, extras, lyrics, each independently
aligned, per the spec section 4.4 step 4). -/
def AnnMeasure.pairCost (m1 m2 : AnnMeasure) : Nat :=
  m1.content.pairCost m2.content
  + extrasCost m1.extras m2.extras
  + alignCost AnnLyric.pairCost AnnLyric.notationSize m1.lyrics m2.lyrics

def AnnMeasure.pairOps (staff : Nat) (m1 m2 : AnnMeasure) : List EditOp :=
  m1.content.pairOps staff m1.mNum m2.mNum m2.content
  ++ extrasOps staff m1.mNum m2.mNum m1.extras m2.extras
  ++ alignWith (AnnLyric.pairOps staff m2.mNum) (AnnLyric.insEditOp staff m2.mNum)
      (AnnLyric.delEditOp staff m1.mNum) AnnLyric.pairCost AnnLyric.notationSize
      m1.lyrics m2.lyrics

/-- An inserted or deleted measure is one reported operation at the
measure's full size (release notes: insbar/delbar). -/
def AnnMeasure.insEditOp (staff : Nat) (b : AnnMeasure) : EditOp :=
  ⟨"insbar", b.notationSize, ⟨b.mNum, staff, 10⟩⟩

def AnnMeasure.delEditOp (staff : Nat) (a : AnnMeasure) : EditOp :=
  ⟨"delbar", a.notationSize, ⟨a.mNum, staff, 10⟩⟩

/-- Modelled from the spec (section 3): a part: the ordered measures
of one staff. -/
structure AnnPart where
  measures : List AnnMeasure
deriving DecidableEq, Repr

/-- symbols.txt, AnnPart symbol count: sum over its measures. -/
def AnnPart.notationSize (p : AnnPart) : Nat :=
  p.measures.foldl (fun acc m => acc + m.notationSize) 0

/-- symbols.txt, AnnPart diff: DP alignment of the measure lists; a
deleted or added measure counts its whole symbol count. -/
def AnnPart.pairCost (p q : AnnPart) : Nat :=
  alignCost AnnMeasure.pairCost AnnMeasure.notationSize p.measures q.measures

def AnnPart.pairOps (staff : Nat) (p q : AnnPart) : List EditOp :=
  alignWith (AnnMeasure.pairOps staff) (AnnMeasure.insEditOp staff)
    (AnnMeasure.delEditOp staff) AnnMeasure.pairCost AnnMeasure.notationSize
    p.measures q.measures

/-- A correspondence entry produced by the keyed (non-DP) matcher used
for naturally keyed collections (the spec, section 4.3): a matched
pair, an unmatched insert, or an unmatched delete. -/
inductive KOp (α : Type) where
  | kpair (a b : α)
  | kins (b : α)
  | kdel (a : α)
deriving DecidableEq, Repr

/-- Remove the first element with the given key from the list,
returning it together with the remainder. -/
def extractKey [DecidableEq κ] (key : α → κ) (k : κ) : List α → Option (α × List α)
  | [] => none
  | b :: bs =>
      if key b = k then some (b, bs)
      else
        match extractKey key k bs with
        | none => none
        | some (c, rest) => some (c, b :: rest)

/-- Modelled from the spec (sections 4.1 and 4.3): keyed matching for
naturally keyed collections: each left item is matched with the first
right item carrying an equal key; leftover unmatched items on either
side become forced inserts or deletes at the end. -/
def keyedAlign [DecidableEq κ] (key : α → κ) : List α → List α → List (KOp α)
  | [], bs => bs.map .kins
  | a :: as, bs =>
      match extractKey key (key a) bs with
      | none => .kdel a :: keyedAlign key as bs
      | some (b, rest) => .kpair a b :: keyedAlign key as rest

/-- Cost of one keyed correspondence entry: a matched pair costs the
pair cost, an unmatched item its own size. -/
def KOp.entryCost (pc : α → α → Nat) (sz : α → Nat) : KOp α → Nat
  | .kpair a b => pc a b
  | .kins b => sz b
  | .kdel a => sz a

def keyedCost [DecidableEq κ] (key : α → κ) (pc : α → α → Nat) (sz : α → Nat)
    (as bs : List α) : Nat :=
  ((keyedAlign key as bs).map (KOp.entryCost pc sz)).sum

def KOp.entryOps (pairOps : α → α → List EditOp) (insOp delOp : α → EditOp) :
    KOp α → List EditOp
  | .kpair a b => pairOps a b
  | .kins b => [insOp b]
  | .kdel a => [delOp a]

def keyedOps [DecidableEq κ] (key : α → κ) (pairOps : α → α → List EditOp)
    (insOp delOp : α → EditOp) (as bs : List α) : List EditOp :=
  (keyedAlign key as bs).flatMap (KOp.entryOps pairOps insOp delOp)

/-- Modelled from the spec (section 3): one metadata item, a
key/value string pair, matched across trees by key equality only. -/
structure AnnMetadataItem where
  key : String
  value : String
deriving DecidableEq, Repr

/-- symbols.txt, AnnMetadataItem symbol count: len(key) + len(value). -/
def AnnMetadataItem.notationSize (i : AnnMetadataItem) : Nat :=
  i.key.length + i.value.length

/-- symbols.txt, AnnMetadataItem diff: only same-keyed items compare;
a matched pair costs the Levenshtein distance between the values. -/
def AnnMetadataItem.pairCost (a b : AnnMetadataItem) : Nat :=
  levStr a.value b.value

def AnnMetadataItem.pairOps (a b : AnnMetadataItem) : List EditOp :=
  costOp "metadatavalue" ⟨0, 0, 0⟩ (levStr a.value b.value)

def AnnMetadataItem.insEditOp (b : AnnMetadataItem) : EditOp :=
  ⟨"metadatains", b.notationSize, ⟨0, 0, 0⟩⟩

def AnnMetadataItem.delEditOp (a : AnnMetadataItem) : EditOp :=
  ⟨"metadatadel", a.notationSize, ⟨0, 0, 0⟩⟩

/-- Modelled from the spec (section 3) and symbols.txt: a staff group;
matched across trees by name. -/
structure AnnStaffGroup where
  name : String
  abbrevName : String
  symbolShape : Option Nat
  barTogether : Nat
  lowestStaff : Nat
  highestStaff : Nat
deriving DecidableEq, Repr

/-- symbols.txt, AnnStaffGroup symbol count: name and abbreviation
lengths, 1 for the (optional) group symbol shape, 1 for the barline
type, 1 each for the lowest and highest enclosed staff index. -/
def AnnStaffGroup.notationSize (g : AnnStaffGroup) : Nat :=
  g.name.length + g.abbrevName.length + optSym g.symbolShape + 1 + 1 + 1

/-- symbols.txt, AnnStaffGroup diff: Levenshtein on name and
abbreviation, 1 to add or delete the symbol and 2 to change it,
barline type diff 1, 1 for each changed staff index bound. -/
def AnnStaffGroup.pairCost (a b : AnnStaffGroup) : Nat :=
  levStr a.name b.name + levStr a.abbrevName b.abbrevName
  + optChange a.symbolShape b.symbolShape + d1 a.barTogether b.barTogether
  + d1 a.lowestStaff b.lowestStaff + d1 a.highestStaff b.highestStaff

def AnnStaffGroup.pairOps (a b : AnnStaffGroup) : List EditOp :=
  costOp "sgname" ⟨0, 0, 0⟩ (levStr a.name b.name) ++
  costOp "sgabbrev" ⟨0, 0, 0⟩ (levStr a.abbrevName b.abbrevName) ++
  costOp "sgsymbol" ⟨0, 0, 0⟩ (optChange a.symbolShape b.symbolShape) ++
  costOp "sgbartogether" ⟨0, 0, 0⟩ (d1 a.barTogether b.barTogether) ++
  costOp "sgstaves" ⟨0, 0, 0⟩ (d1 a.lowestStaff b.lowestStaff + d1 a.highestStaff b.highestStaff)

def AnnStaffGroup.insEditOp (b : AnnStaffGroup) : EditOp :=
  ⟨"sgins", b.notationSize, ⟨0, 0, 0⟩⟩

def AnnStaffGroup.delEditOp (a : AnnStaffGroup) : EditOp :=
  ⟨"sgdel", a.notationSize, ⟨0, 0, 0⟩⟩

/-- Modelled from the spec (section 3): the score root. -/
structure AnnScore where
  parts : List AnnPart
  staffGroups : List AnnStaffGroup
  metadataItems : List AnnMetadataItem
deriving DecidableEq, Repr

/-- symbols.txt, AnnScore symbol count: sum over all parts, staff
groups, and metadata items. -/
def AnnScore.notationSize (s : AnnScore) : Nat :=
  s.parts.foldl (fun acc p => acc + p.notationSize) 0
  + s.staffGroups.foldl (fun acc g => acc + g.notationSize) 0
  + s.metadataItems.foldl (fun acc i => acc + i.notationSize) 0

/-- Modelled from the spec (section 4.4 step 1) and the 4.1.0 release
notes: part lists are aligned positionally by index (part i against
part i, staves numbered from i upward); surplus parts on either side
become forced deletes or inserts at the part's full size. -/
def partsOpsAux : Nat → List AnnPart → List AnnPart → List EditOp
  | i, [], qs =>
      (qs.enumFrom i).map (fun x => (⟨"inspart", x.2.notationSize, ⟨0, x.1, 0⟩⟩ : EditOp))
  | i, p :: ps, [] => (⟨"delpart", p.notationSize, ⟨0, i, 0⟩⟩ : EditOp) :: partsOpsAux (i + 1) ps []
  | i, p :: ps, q :: qs => AnnPart.pairOps i p q ++ partsOpsAux (i + 1) ps qs

/-- Cost of the positional part alignment: paired parts cost their
pair cost, surplus parts their full size. -/
def partsCostAux : List AnnPart → List AnnPart → Nat
  | [], qs => (qs.map AnnPart.notationSize).sum
  | p :: ps, [] => p.notationSize + partsCostAux ps []
  | p :: ps, q :: qs => p.pairCost q + partsCostAux ps qs

/-- Modelled from the spec (section 4.4): the diff orchestration:
metadata items and staff groups aligned by natural key, parts aligned
positionally, recursion below through the DP aligner. -/
def AnnScore.diffOps (A B : AnnScore) : List EditOp :=
  keyedOps AnnMetadataItem.key AnnMetadataItem.pairOps AnnMetadataItem.insEditOp
    AnnMetadataItem.delEditOp A.metadataItems B.metadataItems
  ++ keyedOps AnnStaffGroup.name AnnStaffGroup.pairOps AnnStaffGroup.insEditOp
      AnnStaffGroup.delEditOp A.staffGroups B.staffGroups
  ++ partsOpsAux 1 A.parts B.parts

/-- Total symbolic edit cost of the diff of two scores. -/
def AnnScore.diffCost (A B : AnnScore) : Nat :=
  keyedCost AnnMetadataItem.key AnnMetadataItem.pairCost AnnMetadataItem.notationSize
    A.metadataItems B.metadataItems
  + keyedCost AnnStaffGroup.name AnnStaffGroup.pairCost AnnStaffGroup.notationSize
      A.staffGroups B.staffGroups
  + partsCostAux A.parts B.parts

/-- The JSON SER record (release notes and the spec, section 6). -/
structure SEROutput where
  numSymbolErrors : Nat
  numSymbolsInGroundTruth : Nat
  ser : Rat
deriving DecidableEq, Repr

/-- Division as Python performs it: raises ZeroDivisionError on a zero
denominator. -/
def pyDiv (a b : Rat) : Except String Rat :=
  if b = 0 then .error "ZeroDivisionError" else .ok (a / b)

/-- Modelled from ReleaseNotes_4.1.0 (the SER output option, whose
implementation file is missing from src): SER = numSymbolErrors /
numSymbolsInGroundTruth with the second input as ground truth; when
numSymbolsInGroundTruth is 0, SER is numSymbolErrors, avoiding the
divide by zero. -/
def getSerOutput (A B : AnnScore) : Except String SEROutput :=
  let errs := A.diffCost B
  let gt := B.notationSize
  if gt = 0 then .ok ⟨errs, gt, (errs : Rat)⟩
  else
    match pyDiv (errs : Rat) (gt : Rat) with
    | .error e => .error e
    | .ok r => .ok ⟨errs, gt, r⟩

/-- Modelled from the spec (sections 4.2 and 6): the detail-category
filter, one flag per modelled category; style, metadata, and voicing
are standalone flags.  Combination names (decoratednotesandrests,
otherobjects, allobjects) denote fixed flag subsets and are not
separate state. -/
structure DetailFilter where
  notesandrests : Bool
  beams : Bool
  ties : Bool
  articulations : Bool
  ornaments : Bool
  signatures : Bool
  directions : Bool
  barlines : Bool
  chordsymbols : Bool
  staffdetails : Bool
  lyrics : Bool
  style : Bool
  metadata : Bool
  voicing : Bool
deriving DecidableEq, Repr

/-- Category-set inclusion between two filters: every category of the
first is present in the second. -/
def DetailFilter.le (F G : DetailFilter) : Prop :=
  F.notesandrests ≤ G.notesandrests ∧ F.beams ≤ G.beams ∧ F.ties ≤ G.ties ∧
  F.articulations ≤ G.articulations ∧ F.ornaments ≤ G.ornaments ∧
  F.signatures ≤ G.signatures ∧ F.directions ≤ G.directions ∧
  F.barlines ≤ G.barlines ∧ F.chordsymbols ≤ G.chordsymbols ∧
  F.staffdetails ≤ G.staffdetails ∧ F.lyrics ≤ G.lyrics ∧ F.style ≤ G.style ∧
  F.metadata ≤ G.metadata ∧ F.voicing ≤ G.voicing

instance (F G : DetailFilter) : Decidable (F.le G) := by
  unfold DetailFilter.le; infer_instance

/-- The same filter with the voicing flag replaced. -/
def DetailFilter.withVoicing (F : DetailFilter) (v : Bool) : DetailFilter :=
  ⟨F.notesandrests, F.beams, F.ties, F.articulations, F.ornaments, F.signatures,
    F.directions, F.barlines, F.chordsymbols, F.staffdetails, F.lyrics, F.style,
    F.metadata, v⟩

/-- Modelled from the spec (section 4.2, the Annotation Tree Builder,
whose implementation file is missing from src): excluded categories
are omitted from the tree entirely.  Applied to a note head: the tie
flag survives only under the ties category. -/
def filterHead (F : DetailFilter) (h : NoteHead) : NoteHead :=
  ⟨h.pitch, h.accid, F.ties && h.tieStart⟩

/-- Filter application to one note: excluded decoration categories are
dropped from the tree. -/
def filterNote (F : DetailFilter) (n : AnnNote) : AnnNote :=
  ⟨n.offset, n.heads.map (filterHead F), n.headType, n.dots, n.graceType,
    n.graceSlash, if F.beams then n.beams else [], n.tupletRatios, n.tupletInfos,
    if F.articulations then n.articulations else [],
    if F.ornaments then n.expressions else [],
    n.headShape, n.headFill, n.headParens, n.stemDir, n.spaceBefore,
    F.style && n.styled⟩

/-- Without voicing, a chord becomes the individual notes within it
(symbols.txt: by default there are no chords, only the notes within
them), each carrying the chord's duration and decoration symbols. -/
def splitChord (n : AnnNote) : List AnnNote :=
  n.heads.map (fun h =>
    ⟨n.offset, [h], n.headType, n.dots, n.graceType, n.graceSlash, n.beams,
      n.tupletRatios, n.tupletInfos, n.articulations, n.expressions,
      n.headShape, n.headFill, n.headParens, n.stemDir, n.spaceBefore, n.styled⟩)

/-- The notes of the content flattened: voices concatenated and every
chord split into its individual notes. -/
def flattenContent : MeasureContent → List AnnNote
  | .flat ns => ns.flatMap splitChord
  | .voiced vs => (vs.flatMap AnnVoice.notes).flatMap splitChord

/-- The content as voices (unvoiced raw content becomes one voice). -/
def voicedContent : MeasureContent → List AnnVoice
  | .flat ns => [⟨ns⟩]
  | .voiced vs => vs

def filterVoice (F : DetailFilter) (v : AnnVoice) : AnnVoice :=
  ⟨v.notes.map (filterNote F)⟩

/-- Filter application to a measure's note content.  With voicing the
voice structure (and chords) survive; without it every voice is
flattened and every chord split.  Without the notesandrests category
the content is empty. -/
def filterContent (F : DetailFilter) (c : MeasureContent) : MeasureContent :=
  if F.notesandrests then
    if F.voicing then .voiced ((voicedContent c).map (filterVoice F))
    else .flat ((flattenContent c).map (filterNote F))
  else if F.voicing then .voiced [] else .flat []

/-- Whether an extra's variant kind is included by the filter. -/
def kindIncluded (F : DetailFilter) : AnnExtra → Bool
  | .clef _ _ _ => F.signatures
  | .barline _ _ _ _ _ _ => F.barlines
  | .chordsym _ _ _ => F.chordsymbols
  | .direction _ _ _ => F.directions
  | .dynamic _ _ _ => F.directions

/-- Filter application to one included extra: only the style flag is
category-gated. -/
def filterExtra (F : DetailFilter) : AnnExtra → AnnExtra
  | .clef o s st => .clef o s (F.style && st)
  | .barline o bt rd rc f fs => .barline o bt rd rc f fs
  | .chordsym o n st => .chordsym o n (F.style && st)
  | .direction o t st => .direction o t (F.style && st)
  | .dynamic o n st => .dynamic o n (F.style && st)

def filterLyric (F : DetailFilter) (l : AnnLyric) : AnnLyric :=
  ⟨l.offset, l.text, l.verseNum, l.verseId, F.style && l.styled⟩

def filterMeasure (F : DetailFilter) (m : AnnMeasure) : AnnMeasure :=
  ⟨m.mNum, filterContent F m.content,
    (m.extras.filter (kindIncluded F)).map (filterExtra F),
    if F.lyrics then m.lyrics.map (filterLyric F) else []⟩

def filterPart (F : DetailFilter) (p : AnnPart) : AnnPart :=
  ⟨p.measures.map (filterMeasure F)⟩

def filterScore (F : DetailFilter) (s : AnnScore) : AnnScore :=
  ⟨s.parts.map (filterPart F),
    if F.staffdetails then s.staffGroups else [],
    if F.metadata then s.metadataItems else []⟩

/-- One block of the text report: the anchor printed in its header
line and the rendered minus/plus lines. -/
structure ReportBlock where
  anchor : Anchor
  lines : List String
deriving DecidableEq, Repr

/-- The blocks of tests/expected_cmd_line_output.txt for the run
musicdiff -i decoratednotesandrests voicing, embedded verbatim in
order (anchors encode the printed header: measure, staff, beat in
tenths, so beat 2.5 is 25). -/
def voicingRunBlocks : List ReportBlock :=
  [⟨⟨1, 1, 10⟩, ["-(voice) [G5 (half note),F5 (half note)]"]⟩,
   ⟨⟨1, 1, 10⟩, ["+(Note:pitch) [G4,B4] (quarter chord), pitch[1]=B4"]⟩,
   ⟨⟨1, 1, 10⟩, ["-(voice) [B4 (quarter note),G4 (quarter note),D5 (quarter note),B4 (quarter note)]"]⟩,
   ⟨⟨1, 1, 10⟩, ["+(Slur) SLUR dur=7.5 numNotes=2"]⟩,
   ⟨⟨1, 1, 20⟩, ["+(Note:pitch) [E4,G4] (quarter chord), pitch[1]=G4"]⟩,
   ⟨⟨1, 1, 30⟩, ["+(Note:pitch) [G4,D5] (quarter chord), pitch[1]=D5"]⟩,
   ⟨⟨1, 1, 40⟩, ["+(Note:pitch) [E4,B4] (quarter chord), pitch[1]=B4"]⟩,
   ⟨⟨2, 1, 10⟩, ["+(Note:pitch) [C5,G5] (half chord), pitch[1]=G5"]⟩,
   ⟨⟨2, 1, 25⟩, ["-(Note:tie) C4 (eighth note), tied",
                 "+(Note:tie) C4 (eighth note), not tied"]⟩,
   ⟨⟨2, 1, 30⟩, ["-(Note:flagsbeams) C4 (eighth note), 1 beam=start",
                 "+(Note:flagsbeams) C4 (eighth note), 1 flag"]⟩,
   ⟨⟨2, 1, 30⟩, ["+(Note:pitch) [D5,F5] (half chord), pitch[1]=F5"]⟩,
   ⟨⟨2, 1, 35⟩, ["-(Note:flagsbeams) A3 (eighth note), 1 beam=stop",
                 "+(Note:flagsbeams) A3 (eighth note), 1 flag"]⟩]

/-- Modelled from the spec (section 6) and the expected command-line
output fixture (which shows repeated headers): the text report
renders one block per reported operation, headed by that operation's
anchor. -/
def textReport (ops : List EditOp) : List ReportBlock :=
  ops.map (fun op => ⟨op.anchor, [op.opName]⟩)

/-- The operation names the lyric emitters use; no other emitter uses
any of them. -/
def lyricOpNames : List String :=
  ["lyrtext", "lyrnum", "lyrid", "lyroffset", "lyrstyle", "lyrins", "lyrdel"]

/-- Whether a reported operation is a lyric-level operation. -/
def isLyricOp (op : EditOp) : Bool := lyricOpNames.contains op.opName

/-- A one-head note at the given offset, pitch, and head type, with
no decorations. -/
def mkNote (off pit ht : Nat) : AnnNote :=
  ⟨off, [⟨pit, none, false⟩], ht, 0, 0, false, [], [], [], [], [], none, none,
    false, none, false, false⟩

/-- A two-head chord (pitches 30 and 34) at the given offset and head
type, with no decorations. -/
def mkChord (off ht : Nat) : AnnNote :=
  ⟨off, [⟨30, none, false⟩, ⟨34, none, false⟩], ht, 0, 0, false, [], [], [], [],
    [], none, none, false, none, false, false⟩

/-- A plain lyric syllable at offset 0. -/
def mkLyric (txt : String) : AnnLyric := ⟨0, txt, none, none, false⟩

/-- First measure of the voicing counterexample score A: the pitches
30 and 34 spread over two monophonic voices, lyric aa. -/
def voicingM1 : AnnMeasure :=
  ⟨1, .voiced [⟨[mkNote 0 30 4]⟩, ⟨[mkNote 0 34 4]⟩], [], [mkLyric "aa"]⟩

/-- Second measure of score A: the chord with a different head type,
lyric bb. -/
def voicingM2 : AnnMeasure := ⟨2, .voiced [⟨[mkChord 0 5]⟩], [], [mkLyric "bb"]⟩

/-- The only measure of score B: the chord, lyric bb. -/
def voicingMB : AnnMeasure := ⟨1, .voiced [⟨[mkChord 0 4]⟩], [], [mkLyric "bb"]⟩

def voicingScoreA : AnnScore := ⟨[⟨[voicingM1, voicingM2]⟩], [], []⟩

def voicingScoreB : AnnScore := ⟨[⟨[voicingMB]⟩], [], []⟩

/-- The filter including notesandrests and lyrics only. -/
def lyrFilter : DetailFilter :=
  ⟨true, false, false, false, false, false, false, false, false, false, true,
    false, false, false⟩

/-- A one-head note with the given offset, pitch, head type, dot
count, and articulation list. -/
def noteD (off pit ht dots : Nat) (arts : List Nat) : AnnNote :=
  ⟨off, [⟨pit, none, false⟩], ht, dots, 0, false, [], [], [], arts, [], none,
    none, false, none, false, false⟩

/-- First measure of the monotonicity counterexample score A: three
dotted quarter-style notes, no articulations. -/
def monoM1 : AnnMeasure :=
  ⟨1, .flat [noteD 0 30 4 1 [], noteD 10 31 4 1 [], noteD 20 32 4 1 []], [], []⟩

/-- Second measure of score A: two notes with a changed head type,
all three carrying the articulation of score B. -/
def monoM2 : AnnMeasure :=
  ⟨2, .flat [noteD 0 30 5 0 [1], noteD 10 31 5 0 [1], noteD 20 32 4 0 [1]], [], []⟩

/-- The only measure of score B: three undotted notes with an
articulation each. -/
def monoMB : AnnMeasure :=
  ⟨1, .flat [noteD 0 30 4 0 [1], noteD 10 31 4 0 [1], noteD 20 32 4 0 [1]], [], []⟩

def monoScoreA : AnnScore := ⟨[⟨[monoM1, monoM2]⟩], [], []⟩

def monoScoreB : AnnScore := ⟨[⟨[monoMB]⟩], [], []⟩

/-- The filter including notesandrests only. -/
def articF1 : DetailFilter :=
  ⟨true, false, false, false, false, false, false, false, false, false, false,
    false, false, false⟩

/-- The filter including notesandrests and articulations. -/
def articF2 : DetailFilter :=
  ⟨true, false, false, true, false, false, false, false, false, false, false,
    false, false, false⟩

/-- The category flag governing each extras kind index. -/
def catIncluded (F : DetailFilter) : Nat → Bool
  | 0 => F.signatures
  | 1 => F.barlines
  | 2 => F.chordsymbols
  | 3 => F.directions
  | 4 => F.directions
  | _ + 5 => false

theorem alignCost_nil_nil (pc : α → α → Nat) (sz : α → Nat) :
    alignCost pc sz [] [] = 0 := rfl

theorem alignCost_nil_cons (pc : α → α → Nat) (sz : α → Nat) (b : α) (bs : List α) :
    alignCost pc sz [] (b :: bs) = sz b + alignCost pc sz [] bs := rfl

theorem alignCost_cons_nil (pc : α → α → Nat) (sz : α → Nat) (a : α) (as : List α) :
    alignCost pc sz (a :: as) [] = sz a + alignCost pc sz as [] := rfl

theorem alignCost_cons_cons (pc : α → α → Nat) (sz : α → Nat)
    (a b : α) (as bs : List α) :
    alignCost pc sz (a :: as) (b :: bs) =
      min (pc a b + alignCost pc sz as bs)
        (min (sz b + alignCost pc sz (a :: as) bs)
          (sz a + alignCost pc sz as (b :: bs))) := rfl

theorem scriptCost_cons (pc : α → α → Nat) (sz : α → Nat) (s : EditStep α)
    (ops : List (EditStep α)) :
    scriptCost pc sz (s :: ops) = stepCost pc sz s + scriptCost pc sz ops := by
  simp [scriptCost]

/-- The DP value is a lower bound on the cost of every alignment script. -/
theorem alignCost_le_scriptCost (pc : α → α → Nat) (sz : α → Nat)
    {ops : List (EditStep α)} {as bs : List α} (h : Aligns ops as bs) :
    alignCost pc sz as bs ≤ scriptCost pc sz ops := by
  induction h with
  | nil => simp [alignCost_nil_nil, scriptCost]
  | pair a b _ ih =>
      rw [alignCost_cons_cons, scriptCost_cons]
      have h1 : stepCost pc sz (.pair a b) = pc a b := rfl
      rw [h1]
      omega
  | @del ops as bs a _ ih =>
      rw [scriptCost_cons]
      have h1 : stepCost pc sz (.del a) = sz a := rfl
      rw [h1]
      cases bs with
      | nil => rw [alignCost_cons_nil]; omega
      | cons b bs => rw [alignCost_cons_cons]; omega
  | @ins ops as bs b _ ih =>
      rw [scriptCost_cons]
      have h1 : stepCost pc sz (.ins b) = sz b := rfl
      rw [h1]
      cases as with
      | nil => rw [alignCost_nil_cons]; omega
      | cons a as => rw [alignCost_cons_cons]; omega

/-- The reported operation sequence is an alignment script. -/
theorem alignSteps_aligns (pc : α → α → Nat) (sz : α → Nat) :
    ∀ (n : Nat) (as bs : List α), as.length + bs.length ≤ n →
      Aligns (alignSteps pc sz as bs) as bs := by
  intro n
  induction n with
  | zero =>
      intro as bs h
      match as, bs with
      | [], [] => rw [alignSteps]; exact .nil
      | [], _ :: _ => simp at h
      | _ :: _, _ => simp at h
  | succ n ih =>
      intro as bs h
      match as, bs with
      | [], [] => rw [alignSteps]; exact .nil
      | [], b :: bs =>
          rw [alignSteps]
          exact .ins b (ih [] bs (by simp at h ⊢; omega))
      | a :: as, [] =>
          rw [alignSteps]
          exact .del a (ih as [] (by simp at h ⊢; omega))
      | a :: as, b :: bs =>
          rw [alignSteps]
          split
          · exact .pair a b (ih as bs (by simp at h ⊢; omega))
          · split
            · exact .ins b (ih (a :: as) bs (by simp at h ⊢; omega))
            · exact .del a (ih as (b :: bs) (by simp at h ⊢; omega))

/-- The reported operation sequence achieves the DP value. -/
theorem alignSteps_cost (pc : α → α → Nat) (sz : α → Nat) :
    ∀ (n : Nat) (as bs : List α), as.length + bs.length ≤ n →
      scriptCost pc sz (alignSteps pc sz as bs) = alignCost pc sz as bs := by
  intro n
  induction n with
  | zero =>
      intro as bs h
      match as, bs with
      | [], [] => rw [alignSteps, alignCost_nil_nil]; simp [scriptCost]
      | [], _ :: _ => simp at h
      | _ :: _, _ => simp at h
  | succ n ih =>
      intro as bs h
      match as, bs with
      | [], [] => rw [alignSteps, alignCost_nil_nil]; simp [scriptCost]
      | [], b :: bs =>
          rw [alignSteps, alignCost_nil_cons, scriptCost_cons,
            ih [] bs (by simp at h ⊢; omega)]
          rfl
      | a :: as, [] =>
          rw [alignSteps, alignCost_cons_nil, scriptCost_cons,
            ih as [] (by simp at h ⊢; omega)]
          rfl
      | a :: as, b :: bs =>
          rw [alignSteps]
          split
          · rename_i hc
            rw [scriptCost_cons, ih as bs (by simp at h ⊢; omega), alignCost_cons_cons]
            have h1 : stepCost pc sz (.pair a b) = pc a b := rfl
            rw [h1]
            omega
          · rename_i hc
            split
            · rename_i hic
              rw [scriptCost_cons, ih (a :: as) bs (by simp at h ⊢; omega),
                alignCost_cons_cons]
              have h1 : stepCost pc sz (.ins b) = sz b := rfl
              rw [h1]
              omega
            · rename_i hic
              rw [scriptCost_cons, ih as (b :: bs) (by simp at h ⊢; omega),
                alignCost_cons_cons]
              have h1 : stepCost pc sz (.del a) = sz a := rfl
              rw [h1]
              omega

/-- C1: for every pair of ordered sequences and every pair-cost and
size function, the total cost computed by the aligner equals the
minimum, over all sequences of match/insert/delete operations
transforming seqA into seqB, of the summed operation costs: the
minimum is attained by an actual alignment script, and no alignment
script costs less. -/
theorem align_totalCost_is_minimum (pc : α → α → Nat) (sz : α → Nat)
    (seqA seqB : List α) :
    (∃ ops, Aligns ops seqA seqB ∧
        scriptCost pc sz ops = alignCost pc sz seqA seqB) ∧
    (∀ ops, Aligns ops seqA seqB → alignCost pc sz seqA seqB ≤ scriptCost pc sz ops) := by
  constructor
  · exact ⟨alignSteps pc sz seqA seqB,
      alignSteps_aligns pc sz (seqA.length + seqB.length) seqA seqB le_rfl,
      alignSteps_cost pc sz (seqA.length + seqB.length) seqA seqB le_rfl⟩
  · intro ops h
    exact alignCost_le_scriptCost pc sz h

/-- Witness for align_totalCost_is_minimum at concrete sequences: the
DP value for aligning the one-element sequences is a lower bound on
the explicit delete-then-insert script. -/
theorem align_totalCost_is_minimum_witness :
    alignCost (fun a b : Nat => if a = b then 0 else 1) (fun _ => 1) [1] [2]
      ≤ scriptCost (fun a b : Nat => if a = b then 0 else 1) (fun _ => 1)
        [EditStep.del 1, EditStep.ins 2] :=
  (align_totalCost_is_minimum (fun a b : Nat => if a = b then 0 else 1)
      (fun _ => 1) [1] [2]).2 [EditStep.del 1, EditStep.ins 2]
    (.del 1 (.ins 2 .nil))

/-- Aligning a sequence with itself costs nothing when matching an
element with itself is free. -/
theorem alignCost_self (pc : α → α → Nat) (sz : α → Nat)
    (hpc : ∀ a, pc a a = 0) : ∀ l : List α, alignCost pc sz l l = 0 := by
  intro l
  induction l with
  | nil => rw [alignCost_nil_nil]
  | cons a l ih =>
      rw [alignCost_cons_cons]
      have := hpc a
      omega

theorem lev_self [DecidableEq β] (l : List β) : lev l l = 0 :=
  alignCost_self _ _ (fun a => by simp) l

theorem levStr_self (s : String) : levStr s s = 0 := lev_self s.data

/-- Monotonicity of the DP alignment cost in the pair-cost and size
functions. -/
theorem alignCost_mono_aux (pc1 pc2 : α → α → Nat) (sz1 sz2 : α → Nat)
    (hpc : ∀ a b, pc1 a b ≤ pc2 a b) (hsz : ∀ a, sz1 a ≤ sz2 a) :
    ∀ (n : Nat) (as bs : List α), as.length + bs.length ≤ n →
      alignCost pc1 sz1 as bs ≤ alignCost pc2 sz2 as bs := by
  intro n
  induction n with
  | zero =>
      intro as bs h
      match as, bs with
      | [], [] => rw [alignCost_nil_nil, alignCost_nil_nil]
      | [], _ :: _ => simp at h
      | _ :: _, _ => simp at h
  | succ n ih =>
      intro as bs h
      match as, bs with
      | [], [] => rw [alignCost_nil_nil, alignCost_nil_nil]
      | [], b :: bs =>
          rw [alignCost_nil_cons, alignCost_nil_cons]
          have := ih [] bs (by simp at h ⊢; omega)
          have := hsz b
          omega
      | a :: as, [] =>
          rw [alignCost_cons_nil, alignCost_cons_nil]
          have := ih as [] (by simp at h ⊢; omega)
          have := hsz a
          omega
      | a :: as, b :: bs =>
          rw [alignCost_cons_cons, alignCost_cons_cons]
          have h1 := ih as bs (by simp at h ⊢; omega)
          have h2 := ih (a :: as) bs (by simp at h ⊢; omega)
          have h3 := ih as (b :: bs) (by simp at h ⊢; omega)
          have := hpc a b
          have := hsz a
          have := hsz b
          omega

theorem alignCost_mono (pc1 pc2 : α → α → Nat) (sz1 sz2 : α → Nat)
    (hpc : ∀ a b, pc1 a b ≤ pc2 a b) (hsz : ∀ a, sz1 a ≤ sz2 a)
    (as bs : List α) :
    alignCost pc1 sz1 as bs ≤ alignCost pc2 sz2 as bs :=
  alignCost_mono_aux pc1 pc2 sz1 sz2 hpc hsz (as.length + bs.length) as bs le_rfl

/-- Aligning mapped sequences is aligning the originals with the costs
composed with the map. -/
theorem alignCost_map_aux (pc : β → β → Nat) (sz : β → Nat) (f : α → β) :
    ∀ (n : Nat) (as bs : List α), as.length + bs.length ≤ n →
      alignCost pc sz (as.map f) (bs.map f)
        = alignCost (fun a b => pc (f a) (f b)) (fun a => sz (f a)) as bs := by
  intro n
  induction n with
  | zero =>
      intro as bs h
      match as, bs with
      | [], [] => rw [List.map_nil, alignCost_nil_nil, alignCost_nil_nil]
      | [], _ :: _ => simp at h
      | _ :: _, _ => simp at h
  | succ n ih =>
      intro as bs h
      match as, bs with
      | [], [] => rw [List.map_nil, alignCost_nil_nil, alignCost_nil_nil]
      | [], b :: bs =>
          have h' := ih [] bs (by simp at h ⊢; omega)
          simp only [List.map_nil] at h'
          rw [List.map_nil, List.map_cons, alignCost_nil_cons, alignCost_nil_cons, h']
      | a :: as, [] =>
          have h' := ih as [] (by simp at h ⊢; omega)
          simp only [List.map_nil] at h'
          rw [List.map_nil, List.map_cons, alignCost_cons_nil, alignCost_cons_nil, h']
      | a :: as, b :: bs =>
          rw [List.map_cons, List.map_cons, alignCost_cons_cons, alignCost_cons_cons]
          rw [show (f a :: as.map f) = (a :: as).map f from rfl,
            show (f b :: bs.map f) = (b :: bs).map f from rfl]
          rw [ih as bs (by simp at h ⊢; omega),
            ih (a :: as) bs (by simp at h ⊢; omega),
            ih as (b :: bs) (by simp at h ⊢; omega)]

theorem alignCost_map (pc : β → β → Nat) (sz : β → Nat) (f : α → β)
    (as bs : List α) :
    alignCost pc sz (as.map f) (bs.map f)
      = alignCost (fun a b => pc (f a) (f b)) (fun a => sz (f a)) as bs :=
  alignCost_map_aux pc sz f (as.length + bs.length) as bs le_rfl

theorem alignWith_nil_nil (pairOps : α → α → List EditOp) (insOp delOp : α → EditOp)
    (pc : α → α → Nat) (sz : α → Nat) :
    alignWith pairOps insOp delOp pc sz [] [] = [] := rfl

theorem alignWith_nil_cons (pairOps : α → α → List EditOp) (insOp delOp : α → EditOp)
    (pc : α → α → Nat) (sz : α → Nat) (b : α) (bs : List α) :
    alignWith pairOps insOp delOp pc sz [] (b :: bs) =
      insOp b :: alignWith pairOps insOp delOp pc sz [] bs := rfl

theorem alignWith_cons_nil (pairOps : α → α → List EditOp) (insOp delOp : α → EditOp)
    (pc : α → α → Nat) (sz : α → Nat) (a : α) (as : List α) :
    alignWith pairOps insOp delOp pc sz (a :: as) [] =
      delOp a :: alignWith pairOps insOp delOp pc sz as [] := rfl

theorem alignWith_cons_cons (pairOps : α → α → List EditOp) (insOp delOp : α → EditOp)
    (pc : α → α → Nat) (sz : α → Nat) (a b : α) (as bs : List α) :
    alignWith pairOps insOp delOp pc sz (a :: as) (b :: bs) =
      if pc a b + alignCost pc sz as bs ≤ sz b + alignCost pc sz (a :: as) bs ∧
          pc a b + alignCost pc sz as bs ≤ sz a + alignCost pc sz as (b :: bs) then
        pairOps a b ++ alignWith pairOps insOp delOp pc sz as bs
      else if sz b + alignCost pc sz (a :: as) bs ≤ sz a + alignCost pc sz as (b :: bs) then
        insOp b :: alignWith pairOps insOp delOp pc sz (a :: as) bs
      else
        delOp a :: alignWith pairOps insOp delOp pc sz as (b :: bs) := rfl

/-- Aligning a list with itself emits no operations when self-matching
is free and emits nothing. -/
theorem alignWith_self (pairOps : α → α → List EditOp) (insOp delOp : α → EditOp)
    (pc : α → α → Nat) (sz : α → Nat)
    (hpc : ∀ a, pc a a = 0) (hops : ∀ a, pairOps a a = []) :
    ∀ l : List α, alignWith pairOps insOp delOp pc sz l l = [] := by
  intro l
  induction l with
  | nil => rw [alignWith_nil_nil]
  | cons a l ih =>
      have h0 : pc a a + alignCost pc sz l l = 0 := by
        rw [hpc a, alignCost_self pc sz hpc l]
      have hcond : pc a a + alignCost pc sz l l ≤ sz a + alignCost pc sz (a :: l) l ∧
          pc a a + alignCost pc sz l l ≤ sz a + alignCost pc sz l (a :: l) := by
        constructor <;> omega
      rw [alignWith_cons_cons, if_pos hcond, hops, ih]
      rfl

/-- Every operation emitted by the aligner comes from a pair
comparison, an insert, or a delete. -/
theorem alignWith_forall (pairOps : α → α → List EditOp) (insOp delOp : α → EditOp)
    (pc : α → α → Nat) (sz : α → Nat) (P : EditOp → Prop)
    (h1 : ∀ a b, ∀ op ∈ pairOps a b, P op)
    (h2 : ∀ b, P (insOp b)) (h3 : ∀ a, P (delOp a)) :
    ∀ (n : Nat) (as bs : List α), as.length + bs.length ≤ n →
      ∀ op ∈ alignWith pairOps insOp delOp pc sz as bs, P op := by
  intro n
  induction n with
  | zero =>
      intro as bs h
      match as, bs with
      | [], [] => rw [alignWith_nil_nil]; intro op hop; simp at hop
      | [], _ :: _ => simp at h
      | _ :: _, _ => simp at h
  | succ n ih =>
      intro as bs h
      match as, bs with
      | [], [] => rw [alignWith_nil_nil]; intro op hop; simp at hop
      | [], b :: bs =>
          rw [alignWith_nil_cons]
          intro op hop
          rcases List.mem_cons.mp hop with h' | h'
          · exact h' ▸ h2 b
          · exact ih [] bs (by simp at h ⊢; omega) op h'
      | a :: as, [] =>
          rw [alignWith_cons_nil]
          intro op hop
          rcases List.mem_cons.mp hop with h' | h'
          · exact h' ▸ h3 a
          · exact ih as [] (by simp at h ⊢; omega) op h'
      | a :: as, b :: bs =>
          rw [alignWith_cons_cons]
          intro op hop
          split at hop
          · rcases List.mem_append.mp hop with h' | h'
            · exact h1 a b op h'
            · exact ih as bs (by simp at h ⊢; omega) op h'
          · split at hop
            · rcases List.mem_cons.mp hop with h' | h'
              · exact h' ▸ h2 b
              · exact ih (a :: as) bs (by simp at h ⊢; omega) op h'
            · rcases List.mem_cons.mp hop with h' | h'
              · exact h' ▸ h3 a
              · exact ih as (b :: bs) (by simp at h ⊢; omega) op h'

theorem d1_self [DecidableEq β] (x : β) : d1 x x = 0 := by simp [d1]

theorem d2_self [DecidableEq β] (x : β) : d2 x x = 0 := by simp [d2]

theorem optChange_self (o : Option Nat) : optChange o o = 0 := by
  cases o <;> simp [optChange]

theorem natChange_self (x : Nat) : natChange x x = 0 := by simp [natChange]

theorem headPairCost_self (h : NoteHead) : h.pairCost h = 0 := by
  simp [NoteHead.pairCost, d2_self, optChange_self, d1_self]

theorem headsDiff_self (l : List NoteHead) : headsDiff l l = 0 := by
  induction l with
  | nil => rfl
  | cons a l ih => simp [headsDiff, headPairCost_self, ih]

theorem noteAspectsCost_self (n : AnnNote) : n.aspectsCost n = 0 := by
  simp [AnnNote.aspectsCost, d1_self, d2_self, natChange_self, optChange_self, lev_self]

theorem notePairCostVoiced_self (n : AnnNote) : n.pairCostVoiced n = 0 := by
  simp [AnnNote.pairCostVoiced, headsDiff_self, noteAspectsCost_self]

theorem noteSamePos_self (n : AnnNote) : n.samePos n := ⟨rfl, rfl⟩

theorem notePairCostFlat_self (n : AnnNote) : n.pairCostFlat n = 0 := by
  rw [AnnNote.pairCostFlat, if_pos (noteSamePos_self n)]
  simp [headsDiff_self, noteAspectsCost_self]

theorem noteAspectOps_self (an : Anchor) (n : AnnNote) :
    AnnNote.aspectOps an n n = [] := by
  simp [AnnNote.aspectOps, headsDiff_self, d1_self, d2_self, natChange_self,
    optChange_self, lev_self, costOp]

theorem notePairOpsVoiced_self (staff mn : Nat) (n : AnnNote) :
    AnnNote.pairOpsVoiced staff mn n n = [] := noteAspectOps_self _ n

theorem notePairOpsFlat_self (staff mn1 mn2 : Nat) (n : AnnNote) :
    AnnNote.pairOpsFlat staff mn1 mn2 n n = [] := by
  rw [AnnNote.pairOpsFlat, if_pos (noteSamePos_self n)]
  exact noteAspectOps_self _ n

theorem voicePairCost_self (v : AnnVoice) : v.pairCost v = 0 :=
  alignCost_self _ _ notePairCostVoiced_self v.notes

theorem voicePairOps_self (staff mn1 mn2 : Nat) (v : AnnVoice) :
    AnnVoice.pairOps staff mn1 mn2 v v = [] :=
  alignWith_self _ _ _ _ _ notePairCostVoiced_self
    (notePairOpsVoiced_self staff mn2) v.notes

theorem extraPairCost_self (e : AnnExtra) : e.pairCost e = 0 := by
  cases e <;> simp [AnnExtra.pairCost, d1_self, d2_self, optChange_self, levStr_self]

theorem extraPairOps_self (staff mn : Nat) (e : AnnExtra) :
    AnnExtra.pairOps staff mn e e = [] := by
  cases e <;> simp [AnnExtra.pairOps, d1_self, d2_self, optChange_self,
    levStr_self, costOp]

theorem lyricPairCost_self (l : AnnLyric) : l.pairCost l = 0 := by
  simp [AnnLyric.pairCost, d1_self, d2_self, optChange_self, levStr_self]

theorem lyricPairOps_self (staff mn : Nat) (l : AnnLyric) :
    AnnLyric.pairOps staff mn l l = [] := by
  simp [AnnLyric.pairOps, d1_self, d2_self, optChange_self, levStr_self, costOp]

theorem contentPairCost_self (c : MeasureContent) : c.pairCost c = 0 := by
  cases c with
  | flat ns => exact alignCost_self _ _ notePairCostFlat_self ns
  | voiced vs => exact alignCost_self _ _ voicePairCost_self vs

theorem contentPairOps_self (staff mn1 mn2 : Nat) (c : MeasureContent) :
    MeasureContent.pairOps staff mn1 mn2 c c = [] := by
  cases c with
  | flat ns =>
      exact alignWith_self _ _ _ _ _ notePairCostFlat_self
        (notePairOpsFlat_self staff mn1 mn2) ns
  | voiced vs =>
      exact alignWith_self _ _ _ _ _ voicePairCost_self
        (voicePairOps_self staff mn1 mn2) vs

theorem extrasCost_self (es : List AnnExtra) : extrasCost es es = 0 := by
  have h : ∀ k, extrasSegCost es es k = 0 := fun k =>
    alignCost_self _ _ extraPairCost_self (kindSegment k es)
  simp [extrasCost, h]

theorem extrasOps_self (staff mn1 mn2 : Nat) (es : List AnnExtra) :
    extrasOps staff mn1 mn2 es es = [] := by
  have h : ∀ k, extrasSegOps staff mn1 mn2 es es k = [] := fun k =>
    alignWith_self _ _ _ _ _ extraPairCost_self
      (extraPairOps_self staff mn2) (kindSegment k es)
  simp [extrasOps, h]

theorem measurePairCost_self (m : AnnMeasure) : m.pairCost m = 0 := by
  rw [AnnMeasure.pairCost, contentPairCost_self, extrasCost_self,
    alignCost_self _ _ lyricPairCost_self m.lyrics]

theorem measurePairOps_self (staff : Nat) (m : AnnMeasure) :
    AnnMeasure.pairOps staff m m = [] := by
  rw [AnnMeasure.pairOps, contentPairOps_self, extrasOps_self,
    alignWith_self _ _ _ _ _ lyricPairCost_self
      (lyricPairOps_self staff m.mNum) m.lyrics]
  rfl

theorem partPairCost_self (p : AnnPart) : p.pairCost p = 0 :=
  alignCost_self _ _ measurePairCost_self p.measures

theorem partPairOps_self (staff : Nat) (p : AnnPart) :
    AnnPart.pairOps staff p p = [] :=
  alignWith_self _ _ _ _ _ measurePairCost_self
    (measurePairOps_self staff) p.measures

theorem keyedAlign_self [DecidableEq κ] (key : α → κ) (l : List α) :
    keyedAlign key l l = l.map (fun a => .kpair a a) := by
  induction l with
  | nil => rfl
  | cons a l ih => simp [keyedAlign, extractKey, ih]

theorem keyedCost_self [DecidableEq κ] (key : α → κ) (pc : α → α → Nat)
    (sz : α → Nat) (hpc : ∀ a, pc a a = 0) (l : List α) :
    keyedCost key pc sz l l = 0 := by
  rw [keyedCost, keyedAlign_self]
  induction l with
  | nil => rfl
  | cons a l ih => simp [KOp.entryCost, hpc] at ih ⊢; exact ih

theorem keyedOps_self [DecidableEq κ] (key : α → κ) (pairOps : α → α → List EditOp)
    (insOp delOp : α → EditOp) (hops : ∀ a, pairOps a a = []) (l : List α) :
    keyedOps key pairOps insOp delOp l l = [] := by
  rw [keyedOps, keyedAlign_self]
  induction l with
  | nil => rfl
  | cons a l ih => simp [KOp.entryOps, hops, ih]

theorem partsCostAux_self (ps : List AnnPart) : partsCostAux ps ps = 0 := by
  induction ps with
  | nil => rfl
  | cons p ps ih => simp [partsCostAux, partPairCost_self, ih]

theorem partsOpsAux_self (ps : List AnnPart) : ∀ i, partsOpsAux i ps ps = [] := by
  induction ps with
  | nil => intro i; rfl
  | cons p ps ih => intro i; simp [partsOpsAux, partPairOps_self, ih]

theorem metadataPairCost_self (i : AnnMetadataItem) : i.pairCost i = 0 := by
  simp [AnnMetadataItem.pairCost, levStr_self]

theorem metadataPairOps_self (i : AnnMetadataItem) : i.pairOps i = [] := by
  simp [AnnMetadataItem.pairOps, levStr_self, costOp]

theorem staffGroupPairCost_self (g : AnnStaffGroup) : g.pairCost g = 0 := by
  simp [AnnStaffGroup.pairCost, d1_self, optChange_self, levStr_self]

theorem staffGroupPairOps_self (g : AnnStaffGroup) : g.pairOps g = [] := by
  simp [AnnStaffGroup.pairOps, d1_self, optChange_self, levStr_self, costOp]

/-- C2: for every annotation tree S (any filter, any voicing mode, as
every such tree is some AnnScore value), diff(S, S) returns an empty
list of edit operations, a total edit cost of 0, and an SER of 0. -/
theorem diff_self_identity (S : AnnScore) :
    S.diffOps S = [] ∧ S.diffCost S = 0 ∧
      getSerOutput S S = .ok ⟨0, S.notationSize, 0⟩ := by
  have hops : S.diffOps S = [] := by
    rw [AnnScore.diffOps,
      keyedOps_self _ _ _ _ metadataPairOps_self,
      keyedOps_self _ _ _ _ staffGroupPairOps_self,
      partsOpsAux_self S.parts 1]
    rfl
  have hcost : S.diffCost S = 0 := by
    rw [AnnScore.diffCost,
      keyedCost_self _ _ _ metadataPairCost_self,
      keyedCost_self _ _ _ staffGroupPairCost_self,
      partsCostAux_self S.parts]
  refine ⟨hops, hcost, ?_⟩
  unfold getSerOutput pyDiv
  rw [hcost]
  by_cases h : S.notationSize = 0
  · simp [h]
  · have hq : ((S.notationSize : Rat)) ≠ 0 := by exact_mod_cast h
    simp [h, hq]

theorem foldl_add_eq_sum (f : α → Nat) (l : List α) :
    ∀ a : Nat, l.foldl (fun acc x => acc + f x) a = a + (l.map f).sum := by
  induction l with
  | nil => intro a; simp
  | cons x l ih => intro a; simp [List.foldl_cons, ih]; omega

/-- C3: the size of every non-leaf entity is the sum of size over its
direct children: a measure over its notes (or voices), extras, and
lyrics; a part over its measures; a score over its parts, staff
groups, and metadata items. -/
theorem size_additivity (m : AnnMeasure) (p : AnnPart) (s : AnnScore) :
    (∀ ns, m.content = .flat ns →
        m.notationSize = (ns.map AnnNote.notationSize).sum
          + (m.extras.map AnnExtra.notationSize).sum
          + (m.lyrics.map AnnLyric.notationSize).sum)
    ∧ (∀ vs, m.content = .voiced vs →
        m.notationSize = (vs.map AnnVoice.notationSize).sum
          + (m.extras.map AnnExtra.notationSize).sum
          + (m.lyrics.map AnnLyric.notationSize).sum)
    ∧ p.notationSize = (p.measures.map AnnMeasure.notationSize).sum
    ∧ s.notationSize = (s.parts.map AnnPart.notationSize).sum
        + (s.staffGroups.map AnnStaffGroup.notationSize).sum
        + (s.metadataItems.map AnnMetadataItem.notationSize).sum := by
  refine ⟨?_, ?_, ?_, ?_⟩
  · intro ns h
    rw [AnnMeasure.notationSize, h, MeasureContent.notationSize,
      foldl_add_eq_sum, foldl_add_eq_sum, foldl_add_eq_sum]
    omega
  · intro vs h
    rw [AnnMeasure.notationSize, h, MeasureContent.notationSize,
      foldl_add_eq_sum, foldl_add_eq_sum, foldl_add_eq_sum]
    omega
  · rw [AnnPart.notationSize, foldl_add_eq_sum]
    omega
  · rw [AnnScore.notationSize, foldl_add_eq_sum, foldl_add_eq_sum, foldl_add_eq_sum]
    omega

/-- Witness for size_additivity at a concrete one-note measure, part,
and score. -/
theorem size_additivity_witness :
    (⟨1, .flat [⟨0, [⟨30, none, false⟩], 4, 0, 0, false, [], [], [], [], [], none,
        none, false, none, false, false⟩], [], []⟩ : AnnMeasure).notationSize
      = ([(⟨0, [⟨30, none, false⟩], 4, 0, 0, false, [], [], [], [], [], none, none,
          false, none, false, false⟩ : AnnNote)].map AnnNote.notationSize).sum
        + (([] : List AnnExtra).map AnnExtra.notationSize).sum
        + (([] : List AnnLyric).map AnnLyric.notationSize).sum :=
  (size_additivity ⟨1, .flat [⟨0, [⟨30, none, false⟩], 4, 0, 0, false, [], [], [],
      [], [], none, none, false, none, false, false⟩], [], []⟩ ⟨[]⟩ ⟨[], [], []⟩).1
    _ rfl

theorem partsOpsAux_eq (ps : List AnnPart) : ∀ (qs : List AnnPart) (i : Nat),
    partsOpsAux i ps qs =
      ((ps.zip qs).enumFrom i).flatMap (fun x => AnnPart.pairOps x.1 x.2.1 x.2.2)
      ++ ((ps.drop qs.length).enumFrom (i + qs.length)).map
          (fun x => (⟨"delpart", x.2.notationSize, ⟨0, x.1, 0⟩⟩ : EditOp))
      ++ ((qs.drop ps.length).enumFrom (i + ps.length)).map
          (fun x => (⟨"inspart", x.2.notationSize, ⟨0, x.1, 0⟩⟩ : EditOp)) := by
  induction ps with
  | nil =>
      intro qs i
      simp [partsOpsAux]
  | cons p ps ih =>
      intro qs i
      cases qs with
      | nil =>
          have h' := ih [] (i + 1)
          simp only [List.length_nil, List.drop_zero, List.zip_nil_right,
            List.enumFrom_nil, List.flatMap_nil, List.nil_append, List.map_nil,
            List.append_nil, List.drop_nil, Nat.add_zero] at h' ⊢
          rw [partsOpsAux, h']
          rfl
      | cons q qs =>
          have h' := ih qs (i + 1)
          rw [partsOpsAux, h']
          have hidx : i + 1 + qs.length = i + (q :: qs).length := by
            simp; omega
          have hidx2 : i + 1 + ps.length = i + (p :: ps).length := by
            simp; omega
          simp only [List.zip_cons_cons, List.enumFrom_cons, List.flatMap_cons,
            List.length_cons, List.drop_succ_cons, hidx, hidx2, List.append_assoc]

/-- C4: for scores with N and M parts, the diff compares part i of A
only with part i of B for i below min N M (staves numbered from 1),
and produces exactly the max N M - min N M forced part-level insert
or delete operations for the surplus parts, each costed at that
part's full size, never pairing a surplus part with any other part. -/
theorem parts_aligned_positionally (A B : AnnScore) :
    A.diffOps B =
      keyedOps AnnMetadataItem.key AnnMetadataItem.pairOps AnnMetadataItem.insEditOp
        AnnMetadataItem.delEditOp A.metadataItems B.metadataItems
      ++ keyedOps AnnStaffGroup.name AnnStaffGroup.pairOps AnnStaffGroup.insEditOp
          AnnStaffGroup.delEditOp A.staffGroups B.staffGroups
      ++ (((A.parts.zip B.parts).enumFrom 1).flatMap
            (fun x => AnnPart.pairOps x.1 x.2.1 x.2.2)
          ++ ((A.parts.drop B.parts.length).enumFrom (1 + B.parts.length)).map
              (fun x => (⟨"delpart", x.2.notationSize, ⟨0, x.1, 0⟩⟩ : EditOp))
          ++ ((B.parts.drop A.parts.length).enumFrom (1 + A.parts.length)).map
              (fun x => (⟨"inspart", x.2.notationSize, ⟨0, x.1, 0⟩⟩ : EditOp)))
    ∧ (((A.parts.drop B.parts.length).enumFrom (1 + B.parts.length)).map
          (fun x => (⟨"delpart", x.2.notationSize, ⟨0, x.1, 0⟩⟩ : EditOp))
        ++ ((B.parts.drop A.parts.length).enumFrom (1 + A.parts.length)).map
            (fun x => (⟨"inspart", x.2.notationSize, ⟨0, x.1, 0⟩⟩ : EditOp))).length
      = max A.parts.length B.parts.length - min A.parts.length B.parts.length := by
  constructor
  · rw [AnnScore.diffOps, partsOpsAux_eq A.parts B.parts 1]
  · simp
    omega

/-- C5: the SER computation never raises a division-by-zero error:
for every pair of scores it returns a record, whose SER field is the
quotient when the ground-truth size is nonzero and is the raw total
edit cost when the ground-truth size is 0. -/
theorem ser_never_divides_by_zero (A B : AnnScore) :
    getSerOutput A B = .ok ⟨A.diffCost B, B.notationSize,
      if B.notationSize = 0 then ((A.diffCost B : Nat) : Rat)
      else ((A.diffCost B : Nat) : Rat) / ((B.notationSize : Nat) : Rat)⟩ := by
  unfold getSerOutput pyDiv
  by_cases h : B.notationSize = 0
  · simp [h]
  · have hq : ((B.notationSize : Nat) : Rat) ≠ 0 := by exact_mod_cast h
    simp [h, hq]

/-- C7 counterexample: two barlines differing only in barline type
cost 2 symbols (a delete then an add, per symbols.txt), not 1 as
claimed. -/
theorem scalar_cost_one_counterexample :
    AnnExtra.pairCost (.barline 0 1 none none none none)
      (.barline 0 2 none none none none) ≠ 1 := by
  decide

/-- C7 amended: with all other fields equal, a clef identity diff
contributes exactly 1 when unequal and 0 when equal, while a barline
type diff and a chord-symbol name diff each contribute exactly 2 when
unequal and 0 when equal (symbols.txt: delete then add). -/
theorem scalar_categorical_field_costs (o1 o2 s1 s2 : Nat) (st : Bool)
    (bt1 bt2 : Nat) (rd rc f fs : Option Nat) (n1 n2 : Nat) :
    AnnExtra.pairCost (.clef o1 s1 st) (.clef o2 s2 st)
        = (if s1 = s2 then 0 else 1)
    ∧ AnnExtra.pairCost (.barline o1 bt1 rd rc f fs) (.barline o2 bt2 rd rc f fs)
        = (if bt1 = bt2 then 0 else 2)
    ∧ AnnExtra.pairCost (.chordsym o1 n1 st) (.chordsym o2 n2 st)
        = (if n1 = n2 then 0 else 2) := by
  refine ⟨?_, ?_, ?_⟩ <;>
    simp [AnnExtra.pairCost, d1, d2, d1_self, d2_self, optChange_self]

/-- Witness for the amended C7 at concrete clef, barline, and
chord-symbol values. -/
theorem scalar_categorical_field_costs_witness :
    AnnExtra.pairCost (.clef 0 1 false) (.clef 0 2 false) = (if 1 = 2 then 0 else 1)
    ∧ AnnExtra.pairCost (.barline 0 1 none none none none)
        (.barline 0 2 none none none none) = (if 1 = 2 then 0 else 2)
    ∧ AnnExtra.pairCost (.chordsym 0 1 false) (.chordsym 0 2 false)
        = (if 1 = 2 then 0 else 2) :=
  scalar_categorical_field_costs 0 0 1 2 false 1 2 none none none none 1 2

theorem extractKey_key [DecidableEq κ] (key : α → κ) (k : κ) :
    ∀ (bs rest : List α) (c : α), extractKey key k bs = some (c, rest) → key c = k := by
  intro bs
  induction bs with
  | nil => intro rest c h; simp [extractKey] at h
  | cons x bs ih =>
      intro rest c h
      rw [extractKey] at h
      by_cases hx : key x = k
      · rw [if_pos hx] at h
        injection h with h'
        injection h' with h1 h2
        exact h1 ▸ hx
      · rw [if_neg hx] at h
        cases he : extractKey key k bs with
        | none => rw [he] at h; simp at h
        | some pr =>
            obtain ⟨c2, rest2⟩ := pr
            rw [he] at h
            injection h with h'
            injection h' with h1 h2
            exact h1 ▸ ih rest2 c2 he

theorem extractKey_mem [DecidableEq κ] (key : α → κ) (k : κ) :
    ∀ (bs rest : List α) (c : α), extractKey key k bs = some (c, rest) → c ∈ bs := by
  intro bs
  induction bs with
  | nil => intro rest c h; simp [extractKey] at h
  | cons x bs ih =>
      intro rest c h
      rw [extractKey] at h
      by_cases hx : key x = k
      · rw [if_pos hx] at h
        injection h with h'
        injection h' with h1 h2
        exact h1 ▸ List.mem_cons_self x bs
      · rw [if_neg hx] at h
        cases he : extractKey key k bs with
        | none => rw [he] at h; simp at h
        | some pr =>
            obtain ⟨c2, rest2⟩ := pr
            rw [he] at h
            injection h with h'
            injection h' with h1 h2
            exact List.mem_cons_of_mem x (h1 ▸ ih rest2 c2 he)

theorem extractKey_rest [DecidableEq κ] (key : α → κ) (k : κ) :
    ∀ (bs rest : List α) (c : α), extractKey key k bs = some (c, rest) →
      ∀ y ∈ bs, key y ≠ k → y ∈ rest := by
  intro bs
  induction bs with
  | nil => intro rest c h; simp [extractKey] at h
  | cons x bs ih =>
      intro rest c h y hy hky
      rw [extractKey] at h
      by_cases hx : key x = k
      · rw [if_pos hx] at h
        injection h with h'
        injection h' with h1 h2
        rcases List.mem_cons.mp hy with h3 | h3
        · exact absurd (h3 ▸ hx) hky
        · exact h2 ▸ h3
      · rw [if_neg hx] at h
        cases he : extractKey key k bs with
        | none => rw [he] at h; simp at h
        | some pr =>
            obtain ⟨c2, rest2⟩ := pr
            rw [he] at h
            injection h with h'
            injection h' with h1 h2
            rcases List.mem_cons.mp hy with h3 | h3
            · exact h2 ▸ (h3 ▸ List.mem_cons_self x rest2)
            · exact h2 ▸ List.mem_cons_of_mem x (ih rest2 c2 he y h3 hky)

theorem extractKey_none [DecidableEq κ] (key : α → κ) (k : κ) :
    ∀ bs : List α, extractKey key k bs = none → ∀ b ∈ bs, key b ≠ k := by
  intro bs
  induction bs with
  | nil => intro _ b hb; simp at hb
  | cons x bs ih =>
      intro h b hb
      rw [extractKey] at h
      by_cases hx : key x = k
      · rw [if_pos hx] at h; simp at h
      · rw [if_neg hx] at h
        cases he : extractKey key k bs with
        | none =>
            rcases List.mem_cons.mp hb with h3 | h3
            · exact h3 ▸ hx
            · exact ih he b h3
        | some pr => rw [he] at h; simp at h

theorem extractKey_subset [DecidableEq κ] (key : α → κ) (k : κ) :
    ∀ (bs rest : List α) (c : α), extractKey key k bs = some (c, rest) →
      rest ⊆ bs := by
  intro bs
  induction bs with
  | nil => intro rest c h; simp [extractKey] at h
  | cons x bs ih =>
      intro rest c h
      rw [extractKey] at h
      by_cases hx : key x = k
      · rw [if_pos hx] at h
        injection h with h'
        injection h' with h1 h2
        exact h2 ▸ List.subset_cons_self x bs
      · rw [if_neg hx] at h
        cases he : extractKey key k bs with
        | none => rw [he] at h; simp at h
        | some pr =>
            obtain ⟨c2, rest2⟩ := pr
            rw [he] at h
            injection h with h'
            injection h' with h1 h2
            subst h2
            intro y hy
            rcases List.mem_cons.mp hy with h3 | h3
            · exact h3 ▸ List.mem_cons_self x bs
            · exact List.mem_cons_of_mem x (ih rest2 c2 he h3)

/-- Every matched pair the keyed aligner produces carries equal keys. -/
theorem keyedAlign_pair_key [DecidableEq κ] (key : α → κ) :
    ∀ (as bs : List α) (a b : α),
      KOp.kpair a b ∈ keyedAlign key as bs → key a = key b := by
  intro as
  induction as with
  | nil => intro bs a b h; simp [keyedAlign] at h
  | cons x as ih =>
      intro bs a b h
      rw [keyedAlign] at h
      cases he : extractKey key (key x) bs with
      | none =>
          rw [he] at h
          rcases List.mem_cons.mp h with h1 | h1
          · simp at h1
          · exact ih bs a b h1
      | some pr =>
          obtain ⟨c, rest⟩ := pr
          rw [he] at h
          rcases List.mem_cons.mp h with h1 | h1
          · have h2 : a = x ∧ b = c := by
              injection h1 with ha hb
              exact ⟨ha, hb⟩
            obtain ⟨ha, hb⟩ := h2
            subst ha; subst hb
            exact (extractKey_key key (key a) bs rest b he).symm
          · exact ih rest a b h1

/-- A left item whose key has no counterpart on the right becomes a
delete entry. -/
theorem keyedAlign_unmatched_del [DecidableEq κ] (key : α → κ) :
    ∀ (as bs : List α) (a : α), a ∈ as → (∀ b ∈ bs, key b ≠ key a) →
      KOp.kdel a ∈ keyedAlign key as bs := by
  intro as
  induction as with
  | nil => intro bs a h; simp at h
  | cons x as ih =>
      intro bs a ha hb
      rw [keyedAlign]
      cases he : extractKey key (key x) bs with
      | none =>
          rcases List.mem_cons.mp ha with h1 | h1
          · exact h1 ▸ List.mem_cons_self _ _
          · exact List.mem_cons_of_mem _ (ih bs a h1 hb)
      | some pr =>
          obtain ⟨c, rest⟩ := pr
          rcases List.mem_cons.mp ha with h1 | h1
          · subst h1
            have hc := extractKey_key key (key a) bs rest c he
            have hcmem := extractKey_mem key (key a) bs rest c he
            exact absurd hc (hb c hcmem)
          · refine List.mem_cons_of_mem _ (ih rest a h1 ?_)
            intro b hbr
            exact hb b (extractKey_subset key (key x) bs rest c he hbr)

/-- A right item whose key has no counterpart on the left becomes an
insert entry. -/
theorem keyedAlign_unmatched_ins [DecidableEq κ] (key : α → κ) :
    ∀ (as bs : List α) (b : α), b ∈ bs → (∀ a ∈ as, key a ≠ key b) →
      KOp.kins b ∈ keyedAlign key as bs := by
  intro as
  induction as with
  | nil =>
      intro bs b hb _
      rw [keyedAlign]
      exact List.mem_map.mpr ⟨b, hb, rfl⟩
  | cons x as ih =>
      intro bs b hb ha
      rw [keyedAlign]
      cases he : extractKey key (key x) bs with
      | none =>
          refine List.mem_cons_of_mem _ (ih bs b hb ?_)
          intro a hax
          exact ha a (List.mem_cons_of_mem x hax)
      | some pr =>
          obtain ⟨c, rest⟩ := pr
          have hbx : key b ≠ key x := fun h =>
            (ha x (List.mem_cons_self x as)) h.symm
          have hbrest : b ∈ rest := extractKey_rest key (key x) bs rest c he b hb hbx
          refine List.mem_cons_of_mem _ (ih rest b hbrest ?_)
          intro a hax
          exact ha a (List.mem_cons_of_mem x hax)

/-- C8: metadata items are compared only against items with an equal
key, never by list position: every matched pair the keyed metadata
aligner produces has equal keys and costs the Levenshtein distance
between the value strings; every item whose key has no counterpart
becomes a pure delete or insert entry costing len(key) + len(value). -/
theorem metadata_matched_by_key (as bs : List AnnMetadataItem) :
    (∀ a b, KOp.kpair a b ∈ keyedAlign AnnMetadataItem.key as bs →
        a.key = b.key ∧
        KOp.entryCost AnnMetadataItem.pairCost AnnMetadataItem.notationSize
          (.kpair a b) = levStr a.value b.value)
    ∧ (∀ a, a ∈ as → (∀ b, b ∈ bs → b.key ≠ a.key) →
        KOp.kdel a ∈ keyedAlign AnnMetadataItem.key as bs ∧
        KOp.entryCost AnnMetadataItem.pairCost AnnMetadataItem.notationSize
          (.kdel a) = a.key.length + a.value.length)
    ∧ (∀ b, b ∈ bs → (∀ a, a ∈ as → a.key ≠ b.key) →
        KOp.kins b ∈ keyedAlign AnnMetadataItem.key as bs ∧
        KOp.entryCost AnnMetadataItem.pairCost AnnMetadataItem.notationSize
          (.kins b) = b.key.length + b.value.length) := by
  refine ⟨?_, ?_, ?_⟩
  · intro a b h
    exact ⟨keyedAlign_pair_key AnnMetadataItem.key as bs a b h, rfl⟩
  · intro a ha hb
    exact ⟨keyedAlign_unmatched_del AnnMetadataItem.key as bs a ha hb, rfl⟩
  · intro b hb ha
    exact ⟨keyedAlign_unmatched_ins AnnMetadataItem.key as bs b hb ha, rfl⟩

/-- Witness for metadata_matched_by_key at concrete item lists: a
same-keyed pair matches at Levenshtein cost, a lone key is deleted at
full size. -/
theorem metadata_matched_by_key_witness :
    ((⟨"title", "ax"⟩ : AnnMetadataItem).key = (⟨"title", "ay"⟩ : AnnMetadataItem).key ∧
      KOp.entryCost AnnMetadataItem.pairCost AnnMetadataItem.notationSize
        (.kpair ⟨"title", "ax"⟩ ⟨"title", "ay"⟩) = levStr "ax" "ay")
    ∧ (KOp.kdel (⟨"composer", "cd"⟩ : AnnMetadataItem) ∈
        keyedAlign AnnMetadataItem.key
          [⟨"title", "ax"⟩, ⟨"composer", "cd"⟩] [⟨"title", "ay"⟩] ∧
      KOp.entryCost AnnMetadataItem.pairCost AnnMetadataItem.notationSize
        (.kdel ⟨"composer", "cd"⟩) = "composer".length + "cd".length) :=
  ⟨(metadata_matched_by_key [⟨"title", "ax"⟩, ⟨"composer", "cd"⟩]
      [⟨"title", "ay"⟩]).1 _ _ (by decide),
    (metadata_matched_by_key [⟨"title", "ax"⟩, ⟨"composer", "cd"⟩]
      [⟨"title", "ay"⟩]).2.1 _ (by decide) (by decide)⟩

/-- C9 counterexample: in the program's own expected text output the
first two blocks of the voicing run are distinct blocks that carry the
same measure 1, staff 1, beat 1.0 header, refuting exactly one block
per distinct anchor. -/
theorem one_block_per_anchor_counterexample :
    (voicingRunBlocks.map ReportBlock.anchor).get? 0
        = (voicingRunBlocks.map ReportBlock.anchor).get? 1
    ∧ voicingRunBlocks.get? 0 ≠ voicingRunBlocks.get? 1 := by
  decide

/-- C9 amended: the text report contains one block per emitted
operation, each headed by that operation's anchor, so several blocks
may carry the same header; every emitted operation appears inside a
block headed by its own anchor. -/
theorem report_one_block_per_operation (ops : List EditOp) :
    (textReport ops).length = ops.length ∧
    (textReport ops).map ReportBlock.anchor = ops.map EditOp.anchor := by
  constructor
  · simp [textReport]
  · simp [textReport]

theorem alignWith_forall_ops (pairOps : α → α → List EditOp) (insOp delOp : α → EditOp)
    (pc : α → α → Nat) (sz : α → Nat) (P : EditOp → Prop)
    (h1 : ∀ a b, ∀ op ∈ pairOps a b, P op)
    (h2 : ∀ b, P (insOp b)) (h3 : ∀ a, P (delOp a)) (as bs : List α) :
    ∀ op ∈ alignWith pairOps insOp delOp pc sz as bs, P op :=
  alignWith_forall pairOps insOp delOp pc sz P h1 h2 h3 (as.length + bs.length) as bs le_rfl

theorem costOp_name (nm : String) (an : Anchor) (c : Nat) :
    ∀ op ∈ costOp nm an c, op.opName = nm := by
  intro op hop
  rw [costOp] at hop
  split at hop
  · simp at hop
  · rw [List.mem_singleton] at hop
    rw [hop]

theorem costOp_notLyric (nm : String) (an : Anchor) (c : Nat)
    (h : lyricOpNames.contains nm = false) :
    ∀ op ∈ costOp nm an c, isLyricOp op = false := by
  intro op hop
  rw [isLyricOp, costOp_name nm an c op hop, h]

theorem forall_mem_append {P : EditOp → Prop} {l1 l2 : List EditOp}
    (h1 : ∀ op ∈ l1, P op) (h2 : ∀ op ∈ l2, P op) : ∀ op ∈ l1 ++ l2, P op := by
  intro op hop
  rcases List.mem_append.mp hop with h | h
  · exact h1 op h
  · exact h2 op h

theorem noteAspectOps_notLyric (an : Anchor) (a b : AnnNote) :
    ∀ op ∈ AnnNote.aspectOps an a b, isLyricOp op = false := by
  rw [AnnNote.aspectOps]
  refine forall_mem_append ?_ (costOp_notLyric "style" _ _ (by decide))
  refine forall_mem_append ?_ (costOp_notLyric "stemdir" _ _ (by decide))
  refine forall_mem_append ?_ (costOp_notLyric "spacebefore" _ _ (by decide))
  refine forall_mem_append ?_ (costOp_notLyric "headparens" _ _ (by decide))
  refine forall_mem_append ?_ (costOp_notLyric "headfill" _ _ (by decide))
  refine forall_mem_append ?_ (costOp_notLyric "headshape" _ _ (by decide))
  refine forall_mem_append ?_ (costOp_notLyric "expr" _ _ (by decide))
  refine forall_mem_append ?_ (costOp_notLyric "artic" _ _ (by decide))
  refine forall_mem_append ?_ (costOp_notLyric "tuplet" _ _ (by decide))
  refine forall_mem_append ?_ (costOp_notLyric "flagsbeams" _ _ (by decide))
  refine forall_mem_append ?_ (costOp_notLyric "graceslash" _ _ (by decide))
  refine forall_mem_append ?_ (costOp_notLyric "grace" _ _ (by decide))
  refine forall_mem_append ?_ (costOp_notLyric "dots" _ _ (by decide))
  refine forall_mem_append ?_ (costOp_notLyric "notehead" _ _ (by decide))
  exact costOp_notLyric "pitch" _ _ (by decide)

theorem noteInsEditOp_notLyric (staff mn : Nat) (b : AnnNote) :
    isLyricOp (AnnNote.insEditOp staff mn b) = false := rfl

theorem noteDelEditOp_notLyric (staff mn : Nat) (a : AnnNote) :
    isLyricOp (AnnNote.delEditOp staff mn a) = false := rfl

theorem notePairOpsFlat_notLyric (staff mn1 mn2 : Nat) (a b : AnnNote) :
    ∀ op ∈ AnnNote.pairOpsFlat staff mn1 mn2 a b, isLyricOp op = false := by
  intro op hop
  rw [AnnNote.pairOpsFlat] at hop
  split at hop
  · exact noteAspectOps_notLyric _ a b op hop
  · rcases List.mem_cons.mp hop with h | h
    · rw [h]; exact noteDelEditOp_notLyric staff mn1 a
    · rw [List.mem_singleton] at h
      rw [h]; exact noteInsEditOp_notLyric staff mn2 b

theorem voicePairOps_notLyric (staff mn1 mn2 : Nat) (a b : AnnVoice) :
    ∀ op ∈ AnnVoice.pairOps staff mn1 mn2 a b, isLyricOp op = false :=
  alignWith_forall_ops _ _ _ _ _ _
    (fun x y => noteAspectOps_notLyric _ x y)
    (fun y => noteInsEditOp_notLyric staff mn2 y)
    (fun x => noteDelEditOp_notLyric staff mn1 x) a.notes b.notes

theorem voiceInsEditOp_notLyric (staff mn : Nat) (b : AnnVoice) :
    isLyricOp (AnnVoice.insEditOp staff mn b) = false := rfl

theorem voiceDelEditOp_notLyric (staff mn : Nat) (a : AnnVoice) :
    isLyricOp (AnnVoice.delEditOp staff mn a) = false := rfl

theorem contentPairOps_notLyric (staff mn1 mn2 : Nat) (c1 c2 : MeasureContent) :
    ∀ op ∈ MeasureContent.pairOps staff mn1 mn2 c1 c2, isLyricOp op = false := by
  cases c1 with
  | flat ns1 =>
      cases c2 with
      | flat ns2 =>
          exact alignWith_forall_ops _ _ _ _ _ _
            (fun x y => notePairOpsFlat_notLyric staff mn1 mn2 x y)
            (fun y => noteInsEditOp_notLyric staff mn2 y)
            (fun x => noteDelEditOp_notLyric staff mn1 x) ns1 ns2
      | voiced vs2 =>
          intro op hop
          rcases List.mem_cons.mp hop with h | h
          · rw [h]; rfl
          · rw [List.mem_singleton] at h; rw [h]; rfl
  | voiced vs1 =>
      cases c2 with
      | flat ns2 =>
          intro op hop
          rcases List.mem_cons.mp hop with h | h
          · rw [h]; rfl
          · rw [List.mem_singleton] at h; rw [h]; rfl
      | voiced vs2 =>
          exact alignWith_forall_ops _ _ _ _ _ _
            (fun x y => voicePairOps_notLyric staff mn1 mn2 x y)
            (fun y => voiceInsEditOp_notLyric staff mn2 y)
            (fun x => voiceDelEditOp_notLyric staff mn1 x) vs1 vs2

theorem kindIncluded_withVoicing (F : DetailFilter) (v : Bool) :
    kindIncluded (F.withVoicing v) = kindIncluded F := by
  funext e; cases e <;> rfl

theorem filterExtra_withVoicing (F : DetailFilter) (v : Bool) :
    filterExtra (F.withVoicing v) = filterExtra F := by
  funext e; cases e <;> rfl

theorem filterLyric_withVoicing (F : DetailFilter) (v : Bool) :
    filterLyric (F.withVoicing v) = filterLyric F := by
  funext l; rfl

theorem withVoicing_lyrics (F : DetailFilter) (v : Bool) :
    (F.withVoicing v).lyrics = F.lyrics := rfl

/-- C10 amended: within a compared measure pair, the lyric-level
operations are computed from the lyric lists alone and are therefore
identical whether or not voicing is in the detail filter; toggling
voicing can only change lyric operations by changing which measures
(or parts) become paired at the levels above. -/
theorem lyric_ops_voicing_independent (F : DetailFilter) (v1 v2 : Bool)
    (staff : Nat) (m1 m2 : AnnMeasure) :
    (AnnMeasure.pairOps staff (filterMeasure (F.withVoicing v1) m1)
        (filterMeasure (F.withVoicing v1) m2)).filter isLyricOp
      = (AnnMeasure.pairOps staff (filterMeasure (F.withVoicing v2) m1)
          (filterMeasure (F.withVoicing v2) m2)).filter isLyricOp := by
  have key : ∀ v : Bool,
      (AnnMeasure.pairOps staff (filterMeasure (F.withVoicing v) m1)
          (filterMeasure (F.withVoicing v) m2)).filter isLyricOp
        = (extrasOps staff m1.mNum m2.mNum
              ((m1.extras.filter (kindIncluded F)).map (filterExtra F))
              ((m2.extras.filter (kindIncluded F)).map (filterExtra F))).filter isLyricOp
          ++ (alignWith (AnnLyric.pairOps staff m2.mNum)
                (AnnLyric.insEditOp staff m2.mNum) (AnnLyric.delEditOp staff m1.mNum)
                AnnLyric.pairCost AnnLyric.notationSize
                (if F.lyrics then m1.lyrics.map (filterLyric F) else [])
                (if F.lyrics then m2.lyrics.map (filterLyric F) else [])).filter
              isLyricOp := by
    intro v
    rw [AnnMeasure.pairOps]
    simp only [filterMeasure]
    rw [kindIncluded_withVoicing, filterExtra_withVoicing, filterLyric_withVoicing,
      withVoicing_lyrics]
    rw [List.filter_append, List.filter_append]
    rw [List.filter_eq_nil_iff.mpr (by
      intro op hop
      have h := contentPairOps_notLyric staff m1.mNum m2.mNum
        (filterContent (F.withVoicing v) m1.content)
        (filterContent (F.withVoicing v) m2.content) op hop
      simp [h])]
    rw [List.nil_append]
  rw [key v1, key v2]

/-- C10 counterexample: with lyrics included in both runs, toggling
the voicing category changes the lyric operations the diff produces:
the measure pairing flips, so the lyric substitution (aa against bb)
appears only in the run without voicing. -/
theorem lyric_ops_voicing_counterexample :
    (lyrFilter.withVoicing false).lyrics = true ∧
    (lyrFilter.withVoicing true).lyrics = true ∧
    ((filterScore (lyrFilter.withVoicing false) voicingScoreA).diffOps
        (filterScore (lyrFilter.withVoicing false) voicingScoreB)).filter isLyricOp
      ≠ ((filterScore (lyrFilter.withVoicing true) voicingScoreA).diffOps
          (filterScore (lyrFilter.withVoicing true) voicingScoreB)).filter
          isLyricOp := by
  refine ⟨rfl, rfl, ?_⟩
  decide

/-- C6 counterexample: the filters satisfy F1 included in F2
(articulations added), yet the diff of the same two scores produces
four edit operations under F1 and only three under F2: the added
articulation costs re-align the measures, replacing a match carrying
three aspect operations by a cheaper match carrying two. -/
theorem filter_monotonicity_counterexample :
    articF1.le articF2 ∧
    ¬ (((filterScore articF1 monoScoreA).diffOps
          (filterScore articF1 monoScoreB)).length
        ≤ ((filterScore articF2 monoScoreA).diffOps
            (filterScore articF2 monoScoreB)).length) := by
  constructor
  · decide
  · decide

theorem boolSym_and_mono : ∀ p q x : Bool, p ≤ q → boolSym (p && x) ≤ boolSym (q && x) := by
  decide

theorem d1_and_mono : ∀ p q x y : Bool, p ≤ q →
    d1 (p && x) (p && y) ≤ d1 (q && x) (q && y) := by
  decide

theorem bool_le_true : ∀ p q : Bool, p ≤ q → p = true → q = true := by decide

theorem gate_mono_lev [DecidableEq β] {p q : Bool} (hpq : p ≤ q) (xs ys : List β) :
    lev (if p then xs else []) (if p then ys else [])
      ≤ lev (if q then xs else []) (if q then ys else []) := by
  cases p with
  | false =>
      have h0 : lev ([] : List β) [] = 0 := rfl
      simp [h0]
  | true =>
      have hq := bool_le_true true q hpq rfl
      subst hq
      simp

theorem gate_mono_length {p q : Bool} (hpq : p ≤ q) (xs : List β) :
    (if p then xs else []).length ≤ (if q then xs else []).length := by
  cases p with
  | false => simp
  | true =>
      have hq := bool_le_true true q hpq rfl
      subst hq
      simp

theorem filterHead_pitch (F : DetailFilter) (x : NoteHead) :
    (filterHead F x).pitch = x.pitch := rfl

theorem map_filterHead_pitch (F : DetailFilter) (l : List NoteHead) :
    (l.map (filterHead F)).map NoteHead.pitch = l.map NoteHead.pitch := by
  rw [List.map_map]
  exact List.map_congr_left (fun x _ => rfl)

theorem filterHead_size_mono {F G : DetailFilter} (hties : F.ties ≤ G.ties)
    (x : NoteHead) :
    (filterHead F x).notationSize ≤ (filterHead G x).notationSize := by
  have h := boolSym_and_mono F.ties G.ties x.tieStart hties
  simp only [filterHead, NoteHead.notationSize]
  omega

theorem filterHead_pairCost_mono {F G : DetailFilter} (hties : F.ties ≤ G.ties)
    (x y : NoteHead) :
    (filterHead F x).pairCost (filterHead F y)
      ≤ (filterHead G x).pairCost (filterHead G y) := by
  have h := d1_and_mono F.ties G.ties x.tieStart y.tieStart hties
  simp only [filterHead, NoteHead.pairCost]
  omega

theorem headsDiff_map_mono {F G : DetailFilter} (hties : F.ties ≤ G.ties) :
    ∀ as bs : List NoteHead,
      headsDiff (as.map (filterHead F)) (bs.map (filterHead F))
        ≤ headsDiff (as.map (filterHead G)) (bs.map (filterHead G)) := by
  intro as
  induction as with
  | nil =>
      intro bs
      simp only [List.map_nil, headsDiff]
      have h1 : ((bs.map (filterHead F)).map NoteHead.notationSize).sum
          ≤ ((bs.map (filterHead G)).map NoteHead.notationSize).sum := by
        rw [List.map_map, List.map_map]
        exact List.sum_le_sum (fun i _ => filterHead_size_mono hties i)
      exact h1
  | cons a as ih =>
      intro bs
      cases bs with
      | nil =>
          simp only [List.map_cons, List.map_nil, headsDiff]
          have h1 := filterHead_size_mono hties a
          have h2 := ih []
          simp only [List.map_nil] at h2
          omega
      | cons b bs =>
          simp only [List.map_cons, headsDiff]
          have h1 := filterHead_pairCost_mono hties a b
          have h2 := ih bs
          omega

theorem filterNote_heads (F : DetailFilter) (n : AnnNote) :
    (filterNote F n).heads = n.heads.map (filterHead F) := rfl

theorem filterNote_size_mono {F G : DetailFilter} (hle : F.le G) (n : AnnNote) :
    (filterNote F n).notationSize ≤ (filterNote G n).notationSize := by
  obtain ⟨hnar, hbeams, hties, hartic, horn, _, _, _, _, _, _, hstyle, _, _⟩ := hle
  simp only [filterNote, AnnNote.notationSize]
  have h1 : ((n.heads.map (filterHead F)).map NoteHead.notationSize).sum
      ≤ ((n.heads.map (filterHead G)).map NoteHead.notationSize).sum := by
    rw [List.map_map, List.map_map]
    exact List.sum_le_sum (fun i _ => filterHead_size_mono hties i)
  have h2 := gate_mono_length hbeams n.beams
  have h3 := gate_mono_length hartic n.articulations
  have h4 := gate_mono_length horn n.expressions
  have h5 := boolSym_and_mono F.style G.style n.styled hstyle
  omega

theorem filterNote_aspects_mono {F G : DetailFilter} (hle : F.le G) (a b : AnnNote) :
    (filterNote F a).aspectsCost (filterNote F b)
      ≤ (filterNote G a).aspectsCost (filterNote G b) := by
  obtain ⟨hnar, hbeams, hties, hartic, horn, _, _, _, _, _, _, hstyle, _, _⟩ := hle
  simp only [filterNote, AnnNote.aspectsCost]
  have h1 := gate_mono_lev hbeams a.beams b.beams
  have h2 := gate_mono_lev hartic a.articulations b.articulations
  have h3 := gate_mono_lev horn a.expressions b.expressions
  have h4 := d1_and_mono F.style G.style a.styled b.styled hstyle
  omega

theorem filterNote_samePos (F : DetailFilter) (a b : AnnNote) :
    (filterNote F a).samePos (filterNote F b) ↔ a.samePos b := by
  simp only [AnnNote.samePos, filterNote]
  rw [map_filterHead_pitch, map_filterHead_pitch]

theorem filterNote_pairCostFlat_mono {F G : DetailFilter} (hle : F.le G)
    (a b : AnnNote) :
    (filterNote F a).pairCostFlat (filterNote F b)
      ≤ (filterNote G a).pairCostFlat (filterNote G b) := by
  have hties := hle.2.2.1
  rw [AnnNote.pairCostFlat, AnnNote.pairCostFlat]
  by_cases h : a.samePos b
  · rw [if_pos ((filterNote_samePos F a b).mpr h),
      if_pos ((filterNote_samePos G a b).mpr h)]
    have h1 : headsDiff (filterNote F a).heads (filterNote F b).heads
        ≤ headsDiff (filterNote G a).heads (filterNote G b).heads := by
      rw [filterNote_heads, filterNote_heads, filterNote_heads, filterNote_heads]
      exact headsDiff_map_mono hties a.heads b.heads
    have h2 := filterNote_aspects_mono hle a b
    omega
  · rw [if_neg (fun hc => h ((filterNote_samePos F a b).mp hc)),
      if_neg (fun hc => h ((filterNote_samePos G a b).mp hc))]
    have h1 := filterNote_size_mono hle a
    have h2 := filterNote_size_mono hle b
    omega

theorem filterNote_pairCostVoiced_mono {F G : DetailFilter} (hle : F.le G)
    (a b : AnnNote) :
    (filterNote F a).pairCostVoiced (filterNote F b)
      ≤ (filterNote G a).pairCostVoiced (filterNote G b) := by
  have hties := hle.2.2.1
  rw [AnnNote.pairCostVoiced, AnnNote.pairCostVoiced]
  have h1 : headsDiff (filterNote F a).heads (filterNote F b).heads
      ≤ headsDiff (filterNote G a).heads (filterNote G b).heads := by
    rw [filterNote_heads, filterNote_heads, filterNote_heads, filterNote_heads]
    exact headsDiff_map_mono hties a.heads b.heads
  have h2 := filterNote_aspects_mono hle a b
  omega

theorem filterVoice_notes (F : DetailFilter) (v : AnnVoice) :
    (filterVoice F v).notes = v.notes.map (filterNote F) := rfl

theorem filterVoice_size_mono {F G : DetailFilter} (hle : F.le G) (v : AnnVoice) :
    (filterVoice F v).notationSize ≤ (filterVoice G v).notationSize := by
  rw [AnnVoice.notationSize, AnnVoice.notationSize,
    foldl_add_eq_sum, foldl_add_eq_sum, filterVoice_notes, filterVoice_notes,
    List.map_map, List.map_map]
  have h := List.sum_le_sum (l := v.notes)
    (f := fun n => (filterNote F n).notationSize)
    (g := fun n => (filterNote G n).notationSize)
    (fun n _ => filterNote_size_mono hle n)
  simpa using h

theorem filterVoice_pairCost_mono {F G : DetailFilter} (hle : F.le G)
    (v w : AnnVoice) :
    (filterVoice F v).pairCost (filterVoice F w)
      ≤ (filterVoice G v).pairCost (filterVoice G w) := by
  rw [AnnVoice.pairCost, AnnVoice.pairCost, filterVoice_notes, filterVoice_notes,
    filterVoice_notes, filterVoice_notes, alignCost_map, alignCost_map]
  exact alignCost_mono _ _ _ _
    (fun x y => filterNote_pairCostVoiced_mono hle x y)
    (fun x => filterNote_size_mono hle x) v.notes w.notes

theorem filterContent_eq_voiced {F : DetailFilter} (hn : F.notesandrests = true)
    (hvF : F.voicing = true) (c : MeasureContent) :
    filterContent F c = .voiced ((voicedContent c).map (filterVoice F)) := by
  rw [filterContent, if_pos hn, if_pos hvF]

theorem filterContent_eq_flat {F : DetailFilter} (hn : F.notesandrests = true)
    (hvF : F.voicing = false) (c : MeasureContent) :
    filterContent F c = .flat ((flattenContent c).map (filterNote F)) := by
  rw [filterContent, if_pos hn, if_neg (by simp [hvF])]

theorem filterContent_eq_empty_voiced {F : DetailFilter}
    (hn : F.notesandrests = false) (hvF : F.voicing = true) (c : MeasureContent) :
    filterContent F c = .voiced [] := by
  rw [filterContent, if_neg (by simp [hn]), if_pos hvF]

theorem filterContent_eq_empty_flat {F : DetailFilter}
    (hn : F.notesandrests = false) (hvF : F.voicing = false) (c : MeasureContent) :
    filterContent F c = .flat [] := by
  rw [filterContent, if_neg (by simp [hn]), if_neg (by simp [hvF])]

theorem filterContent_size_mono {F G : DetailFilter} (hle : F.le G)
    (hv : F.voicing = G.voicing) (c : MeasureContent) :
    (filterContent F c).notationSize ≤ (filterContent G c).notationSize := by
  have hnar : F.notesandrests ≤ G.notesandrests := hle.1
  by_cases hn : F.notesandrests
  · have hnG := bool_le_true _ _ hnar hn
    by_cases hvF : F.voicing
    · rw [filterContent_eq_voiced hn hvF, filterContent_eq_voiced hnG (hv ▸ hvF)]
      simp only [MeasureContent.notationSize]
      rw [foldl_add_eq_sum, foldl_add_eq_sum, List.map_map, List.map_map]
      have h := List.sum_le_sum (l := voicedContent c)
        (f := fun v => (filterVoice F v).notationSize)
        (g := fun v => (filterVoice G v).notationSize)
        (fun v _ => filterVoice_size_mono hle v)
      simpa using h
    · have hvF' : F.voicing = false := by simpa using hvF
      rw [filterContent_eq_flat hn hvF', filterContent_eq_flat hnG (hv ▸ hvF')]
      simp only [MeasureContent.notationSize]
      rw [foldl_add_eq_sum, foldl_add_eq_sum, List.map_map, List.map_map]
      have h := List.sum_le_sum (l := flattenContent c)
        (f := fun n => (filterNote F n).notationSize)
        (g := fun n => (filterNote G n).notationSize)
        (fun n _ => filterNote_size_mono hle n)
      simpa using h
  · have hn' : F.notesandrests = false := by simpa using hn
    by_cases hvF : F.voicing
    · rw [filterContent_eq_empty_voiced hn' hvF]
      simp [MeasureContent.notationSize]
    · have hvF' : F.voicing = false := by simpa using hvF
      rw [filterContent_eq_empty_flat hn' hvF']
      simp [MeasureContent.notationSize]

theorem filterContent_pairCost_mono {F G : DetailFilter} (hle : F.le G)
    (hv : F.voicing = G.voicing) (c1 c2 : MeasureContent) :
    (filterContent F c1).pairCost (filterContent F c2)
      ≤ (filterContent G c1).pairCost (filterContent G c2) := by
  have hnar : F.notesandrests ≤ G.notesandrests := hle.1
  by_cases hn : F.notesandrests
  · have hnG := bool_le_true _ _ hnar hn
    by_cases hvF : F.voicing
    · rw [filterContent_eq_voiced hn hvF c1, filterContent_eq_voiced hn hvF c2,
        filterContent_eq_voiced hnG (hv ▸ hvF) c1,
        filterContent_eq_voiced hnG (hv ▸ hvF) c2]
      show alignCost AnnVoice.pairCost AnnVoice.notationSize
          ((voicedContent c1).map (filterVoice F)) ((voicedContent c2).map (filterVoice F))
        ≤ alignCost AnnVoice.pairCost AnnVoice.notationSize
          ((voicedContent c1).map (filterVoice G)) ((voicedContent c2).map (filterVoice G))
      rw [alignCost_map, alignCost_map]
      exact alignCost_mono _ _ _ _
        (fun x y => filterVoice_pairCost_mono hle x y)
        (fun x => filterVoice_size_mono hle x) (voicedContent c1) (voicedContent c2)
    · have hvF' : F.voicing = false := by simpa using hvF
      rw [filterContent_eq_flat hn hvF' c1, filterContent_eq_flat hn hvF' c2,
        filterContent_eq_flat hnG (hv ▸ hvF') c1,
        filterContent_eq_flat hnG (hv ▸ hvF') c2]
      show alignCost AnnNote.pairCostFlat AnnNote.notationSize
          ((flattenContent c1).map (filterNote F)) ((flattenContent c2).map (filterNote F))
        ≤ alignCost AnnNote.pairCostFlat AnnNote.notationSize
          ((flattenContent c1).map (filterNote G)) ((flattenContent c2).map (filterNote G))
      rw [alignCost_map, alignCost_map]
      exact alignCost_mono _ _ _ _
        (fun x y => filterNote_pairCostFlat_mono hle x y)
        (fun x => filterNote_size_mono hle x) (flattenContent c1) (flattenContent c2)
  · have hn' : F.notesandrests = false := by simpa using hn
    by_cases hvF : F.voicing
    · rw [filterContent_eq_empty_voiced hn' hvF c1,
        filterContent_eq_empty_voiced hn' hvF c2]
      show alignCost AnnVoice.pairCost AnnVoice.notationSize [] [] ≤ _
      rw [alignCost_nil_nil]
      exact Nat.zero_le _
    · have hvF' : F.voicing = false := by simpa using hvF
      rw [filterContent_eq_empty_flat hn' hvF' c1,
        filterContent_eq_empty_flat hn' hvF' c2]
      show alignCost AnnNote.pairCostFlat AnnNote.notationSize [] [] ≤ _
      rw [alignCost_nil_nil]
      exact Nat.zero_le _

theorem detailFilter_le_style {F G : DetailFilter} (h : F.le G) : F.style ≤ G.style := by
  obtain ⟨_, _, _, _, _, _, _, _, _, _, _, hs, _, _⟩ := h
  exact hs

theorem detailFilter_le_lyrics {F G : DetailFilter} (h : F.le G) : F.lyrics ≤ G.lyrics := by
  obtain ⟨_, _, _, _, _, _, _, _, _, _, hl, _, _, _⟩ := h
  exact hl

theorem detailFilter_le_metadata {F G : DetailFilter} (h : F.le G) :
    F.metadata ≤ G.metadata := by
  obtain ⟨_, _, _, _, _, _, _, _, _, _, _, _, hm, _⟩ := h
  exact hm

theorem detailFilter_le_staffdetails {F G : DetailFilter} (h : F.le G) :
    F.staffdetails ≤ G.staffdetails := by
  obtain ⟨_, _, _, _, _, _, _, _, _, hsd, _, _, _, _⟩ := h
  exact hsd

theorem catIncluded_mono {F G : DetailFilter} (hle : F.le G) (k : Nat) :
    catIncluded F k ≤ catIncluded G k := by
  obtain ⟨_, _, _, _, _, hsig, hdir, hbar, hcs, _, _, _, _, _⟩ := hle
  match k with
  | 0 => exact hsig
  | 1 => exact hbar
  | 2 => exact hcs
  | 3 => exact hdir
  | 4 => exact hdir
  | _ + 5 => exact le_rfl

theorem kindIdx_filterExtra (F : DetailFilter) (e : AnnExtra) :
    (filterExtra F e).kindIdx = e.kindIdx := by
  cases e <;> rfl

theorem kindIncluded_eq_cat (F : DetailFilter) (e : AnnExtra) :
    kindIncluded F e = catIncluded F e.kindIdx := by
  cases e <;> rfl

theorem extraPairCost_ne_kind {a b : AnnExtra} (h : a.kindIdx ≠ b.kindIdx) :
    AnnExtra.pairCost a b = a.notationSize + b.notationSize := by
  cases a <;> cases b <;> first | (exact absurd rfl h) | rfl

theorem filterExtra_size_mono {F G : DetailFilter} (hstyle : F.style ≤ G.style)
    (e : AnnExtra) :
    (filterExtra F e).notationSize ≤ (filterExtra G e).notationSize := by
  cases e with
  | clef o s st =>
      have h := boolSym_and_mono F.style G.style st hstyle
      simp only [filterExtra, AnnExtra.notationSize]
      omega
  | barline o bt rd rc f fs => exact le_rfl
  | chordsym o n st =>
      have h := boolSym_and_mono F.style G.style st hstyle
      simp only [filterExtra, AnnExtra.notationSize]
      omega
  | direction o t st =>
      have h := boolSym_and_mono F.style G.style st hstyle
      simp only [filterExtra, AnnExtra.notationSize]
      omega
  | dynamic o n st =>
      have h := boolSym_and_mono F.style G.style st hstyle
      simp only [filterExtra, AnnExtra.notationSize]
      omega

theorem filterExtra_pairCost_mono {F G : DetailFilter} (hstyle : F.style ≤ G.style)
    (a b : AnnExtra) :
    AnnExtra.pairCost (filterExtra F a) (filterExtra F b)
      ≤ AnnExtra.pairCost (filterExtra G a) (filterExtra G b) := by
  by_cases hk : a.kindIdx = b.kindIdx
  · cases a with
    | clef o1 s1 st1 =>
        cases b with
        | clef o2 s2 st2 =>
            have h := d1_and_mono F.style G.style st1 st2 hstyle
            simp only [filterExtra, AnnExtra.pairCost]
            omega
        | barline _ _ _ _ _ _ => simp [AnnExtra.kindIdx] at hk
        | chordsym _ _ _ => simp [AnnExtra.kindIdx] at hk
        | direction _ _ _ => simp [AnnExtra.kindIdx] at hk
        | dynamic _ _ _ => simp [AnnExtra.kindIdx] at hk
    | barline o1 bt1 rd1 rc1 f1 fs1 =>
        cases b with
        | barline o2 bt2 rd2 rc2 f2 fs2 => exact le_rfl
        | clef _ _ _ => simp [AnnExtra.kindIdx] at hk
        | chordsym _ _ _ => simp [AnnExtra.kindIdx] at hk
        | direction _ _ _ => simp [AnnExtra.kindIdx] at hk
        | dynamic _ _ _ => simp [AnnExtra.kindIdx] at hk
    | chordsym o1 n1 st1 =>
        cases b with
        | chordsym o2 n2 st2 =>
            have h := d1_and_mono F.style G.style st1 st2 hstyle
            simp only [filterExtra, AnnExtra.pairCost]
            omega
        | clef _ _ _ => simp [AnnExtra.kindIdx] at hk
        | barline _ _ _ _ _ _ => simp [AnnExtra.kindIdx] at hk
        | direction _ _ _ => simp [AnnExtra.kindIdx] at hk
        | dynamic _ _ _ => simp [AnnExtra.kindIdx] at hk
    | direction o1 t1 st1 =>
        cases b with
        | direction o2 t2 st2 =>
            have h := d1_and_mono F.style G.style st1 st2 hstyle
            simp only [filterExtra, AnnExtra.pairCost]
            omega
        | clef _ _ _ => simp [AnnExtra.kindIdx] at hk
        | barline _ _ _ _ _ _ => simp [AnnExtra.kindIdx] at hk
        | chordsym _ _ _ => simp [AnnExtra.kindIdx] at hk
        | dynamic _ _ _ => simp [AnnExtra.kindIdx] at hk
    | dynamic o1 n1 st1 =>
        cases b with
        | dynamic o2 n2 st2 =>
            have h := d1_and_mono F.style G.style st1 st2 hstyle
            simp only [filterExtra, AnnExtra.pairCost]
            omega
        | clef _ _ _ => simp [AnnExtra.kindIdx] at hk
        | barline _ _ _ _ _ _ => simp [AnnExtra.kindIdx] at hk
        | chordsym _ _ _ => simp [AnnExtra.kindIdx] at hk
        | direction _ _ _ => simp [AnnExtra.kindIdx] at hk
  · have hkF : (filterExtra F a).kindIdx ≠ (filterExtra F b).kindIdx := by
      rw [kindIdx_filterExtra, kindIdx_filterExtra]; exact hk
    have hkG : (filterExtra G a).kindIdx ≠ (filterExtra G b).kindIdx := by
      rw [kindIdx_filterExtra, kindIdx_filterExtra]; exact hk
    rw [extraPairCost_ne_kind hkF, extraPairCost_ne_kind hkG]
    have h1 := filterExtra_size_mono hstyle a
    have h2 := filterExtra_size_mono hstyle b
    omega

theorem kindSegment_filtered (F : DetailFilter) (k : Nat) :
    ∀ es : List AnnExtra,
      kindSegment k ((es.filter (kindIncluded F)).map (filterExtra F))
        = if catIncluded F k then (kindSegment k es).map (filterExtra F) else [] := by
  intro es
  induction es with
  | nil => cases h : catIncluded F k <;> simp [kindSegment, h]
  | cons e es ih =>
      by_cases hok : kindIncluded F e
      · by_cases hk : e.kindIdx = k
        · have hc : catIncluded F k = true := by
            rw [← hk, ← kindIncluded_eq_cat]; exact hok
          simp [kindSegment, List.filter_cons, hok, hk, hc,
            kindIdx_filterExtra] at ih ⊢
          exact ih
        · simp [kindSegment, List.filter_cons, hok, hk, kindIdx_filterExtra] at ih ⊢
          exact ih
      · by_cases hk : e.kindIdx = k
        · have hc : catIncluded F k = false := by
            rw [← hk, ← kindIncluded_eq_cat]; simpa using hok
          simp [kindSegment, List.filter_cons, hok, hk, hc] at ih ⊢
          exact ih
        · simp [kindSegment, List.filter_cons, hok, hk] at ih ⊢
          exact ih

theorem extrasSegCost_mono {F G : DetailFilter} (hle : F.le G) (k : Nat)
    (es fs : List AnnExtra) :
    extrasSegCost ((es.filter (kindIncluded F)).map (filterExtra F))
        ((fs.filter (kindIncluded F)).map (filterExtra F)) k
      ≤ extrasSegCost ((es.filter (kindIncluded G)).map (filterExtra G))
          ((fs.filter (kindIncluded G)).map (filterExtra G)) k := by
  have hstyle := detailFilter_le_style hle
  rw [extrasSegCost, extrasSegCost, kindSegment_filtered F k es,
    kindSegment_filtered F k fs, kindSegment_filtered G k es,
    kindSegment_filtered G k fs]
  by_cases hc : catIncluded F k
  · have hcG := bool_le_true _ _ (catIncluded_mono hle k) hc
    rw [if_pos hc, if_pos hc, if_pos hcG, if_pos hcG]
    rw [alignCost_map, alignCost_map]
    exact alignCost_mono _ _ _ _
      (fun x y => filterExtra_pairCost_mono hstyle x y)
      (fun x => filterExtra_size_mono hstyle x) (kindSegment k es) (kindSegment k fs)
  · rw [if_neg hc, if_neg hc, alignCost_nil_nil]
    exact Nat.zero_le _

theorem extrasCost_mono {F G : DetailFilter} (hle : F.le G) (es fs : List AnnExtra) :
    extrasCost ((es.filter (kindIncluded F)).map (filterExtra F))
        ((fs.filter (kindIncluded F)).map (filterExtra F))
      ≤ extrasCost ((es.filter (kindIncluded G)).map (filterExtra G))
          ((fs.filter (kindIncluded G)).map (filterExtra G)) := by
  rw [extrasCost, extrasCost]
  have h0 := extrasSegCost_mono hle 0 es fs
  have h1 := extrasSegCost_mono hle 1 es fs
  have h2 := extrasSegCost_mono hle 2 es fs
  have h3 := extrasSegCost_mono hle 3 es fs
  have h4 := extrasSegCost_mono hle 4 es fs
  omega

theorem extras_size_sum_mono {F G : DetailFilter} (hle : F.le G) :
    ∀ es : List AnnExtra,
      (((es.filter (kindIncluded F)).map (filterExtra F)).map AnnExtra.notationSize).sum
        ≤ (((es.filter (kindIncluded G)).map (filterExtra G)).map AnnExtra.notationSize).sum := by
  have hstyle := detailFilter_le_style hle
  intro es
  induction es with
  | nil => simp
  | cons e es ih =>
      have hkmono : kindIncluded F e ≤ kindIncluded G e := by
        rw [kindIncluded_eq_cat, kindIncluded_eq_cat]
        exact catIncluded_mono hle e.kindIdx
      by_cases hF : kindIncluded F e
      · have hG := bool_le_true _ _ hkmono hF
        simp only [List.filter_cons, hF, hG, if_true, List.map_cons, List.sum_cons]
        have h := filterExtra_size_mono hstyle e
        omega
      · by_cases hG : kindIncluded G e
        · simp only [List.filter_cons, hF, hG, Bool.false_eq_true, if_false,
            if_true, List.map_cons, List.sum_cons]
          omega
        · simp only [List.filter_cons, hF, hG, Bool.false_eq_true, if_false]
          exact ih

theorem filterLyric_size_mono {F G : DetailFilter} (hstyle : F.style ≤ G.style)
    (l : AnnLyric) :
    (filterLyric F l).notationSize ≤ (filterLyric G l).notationSize := by
  have h := boolSym_and_mono F.style G.style l.styled hstyle
  simp only [filterLyric, AnnLyric.notationSize]
  omega

theorem filterLyric_pairCost_mono {F G : DetailFilter} (hstyle : F.style ≤ G.style)
    (a b : AnnLyric) :
    (filterLyric F a).pairCost (filterLyric F b)
      ≤ (filterLyric G a).pairCost (filterLyric G b) := by
  have h := d1_and_mono F.style G.style a.styled b.styled hstyle
  simp only [filterLyric, AnnLyric.pairCost]
  omega

theorem lyrics_cost_mono {F G : DetailFilter} (hle : F.le G)
    (ls1 ls2 : List AnnLyric) :
    alignCost AnnLyric.pairCost AnnLyric.notationSize
        (if F.lyrics then ls1.map (filterLyric F) else [])
        (if F.lyrics then ls2.map (filterLyric F) else [])
      ≤ alignCost AnnLyric.pairCost AnnLyric.notationSize
          (if G.lyrics then ls1.map (filterLyric G) else [])
          (if G.lyrics then ls2.map (filterLyric G) else []) := by
  have hstyle := detailFilter_le_style hle
  by_cases hF : F.lyrics
  · have hG := bool_le_true _ _ (detailFilter_le_lyrics hle) hF
    rw [if_pos hF, if_pos hF, if_pos hG, if_pos hG, alignCost_map, alignCost_map]
    exact alignCost_mono _ _ _ _
      (fun x y => filterLyric_pairCost_mono hstyle x y)
      (fun x => filterLyric_size_mono hstyle x) ls1 ls2
  · rw [if_neg hF, if_neg hF, alignCost_nil_nil]
    exact Nat.zero_le _

theorem lyrics_size_sum_mono {F G : DetailFilter} (hle : F.le G)
    (ls : List AnnLyric) :
    ((if F.lyrics then ls.map (filterLyric F) else []).map AnnLyric.notationSize).sum
      ≤ ((if G.lyrics then ls.map (filterLyric G) else []).map AnnLyric.notationSize).sum := by
  have hstyle := detailFilter_le_style hle
  by_cases hF : F.lyrics
  · have hG := bool_le_true _ _ (detailFilter_le_lyrics hle) hF
    rw [if_pos hF, if_pos hG]
    have h : ∀ l ∈ ls, (filterLyric F l).notationSize ≤ (filterLyric G l).notationSize :=
      fun l _ => filterLyric_size_mono hstyle l
    rw [List.map_map, List.map_map]
    exact List.sum_le_sum (fun l hl => h l hl)
  · rw [if_neg hF]
    simp

theorem filterMeasure_size_mono {F G : DetailFilter} (hle : F.le G)
    (hv : F.voicing = G.voicing) (m : AnnMeasure) :
    (filterMeasure F m).notationSize ≤ (filterMeasure G m).notationSize := by
  rw [AnnMeasure.notationSize, AnnMeasure.notationSize]
  simp only [filterMeasure]
  rw [foldl_add_eq_sum, foldl_add_eq_sum, foldl_add_eq_sum, foldl_add_eq_sum]
  have h1 := filterContent_size_mono hle hv m.content
  have h2 := extras_size_sum_mono hle m.extras
  have h3 := lyrics_size_sum_mono hle m.lyrics
  omega

theorem filterMeasure_pairCost_mono {F G : DetailFilter} (hle : F.le G)
    (hv : F.voicing = G.voicing) (m1 m2 : AnnMeasure) :
    (filterMeasure F m1).pairCost (filterMeasure F m2)
      ≤ (filterMeasure G m1).pairCost (filterMeasure G m2) := by
  rw [AnnMeasure.pairCost, AnnMeasure.pairCost]
  simp only [filterMeasure]
  have h1 := filterContent_pairCost_mono hle hv m1.content m2.content
  have h2 := extrasCost_mono hle m1.extras m2.extras
  have h3 := lyrics_cost_mono hle m1.lyrics m2.lyrics
  omega

theorem filterPart_measures (F : DetailFilter) (p : AnnPart) :
    (filterPart F p).measures = p.measures.map (filterMeasure F) := rfl

theorem filterPart_size_mono {F G : DetailFilter} (hle : F.le G)
    (hv : F.voicing = G.voicing) (p : AnnPart) :
    (filterPart F p).notationSize ≤ (filterPart G p).notationSize := by
  rw [AnnPart.notationSize, AnnPart.notationSize, foldl_add_eq_sum,
    foldl_add_eq_sum, filterPart_measures, filterPart_measures,
    List.map_map, List.map_map]
  have h := List.sum_le_sum (l := p.measures)
    (f := fun m => (filterMeasure F m).notationSize)
    (g := fun m => (filterMeasure G m).notationSize)
    (fun m _ => filterMeasure_size_mono hle hv m)
  simpa using h

theorem filterPart_pairCost_mono {F G : DetailFilter} (hle : F.le G)
    (hv : F.voicing = G.voicing) (p q : AnnPart) :
    (filterPart F p).pairCost (filterPart F q)
      ≤ (filterPart G p).pairCost (filterPart G q) := by
  rw [AnnPart.pairCost, AnnPart.pairCost, filterPart_measures, filterPart_measures,
    filterPart_measures, filterPart_measures, alignCost_map, alignCost_map]
  exact alignCost_mono _ _ _ _
    (fun x y => filterMeasure_pairCost_mono hle hv x y)
    (fun x => filterMeasure_size_mono hle hv x) p.measures q.measures

theorem partsCostAux_map_mono {F G : DetailFilter} (hle : F.le G)
    (hv : F.voicing = G.voicing) :
    ∀ ps qs : List AnnPart,
      partsCostAux (ps.map (filterPart F)) (qs.map (filterPart F))
        ≤ partsCostAux (ps.map (filterPart G)) (qs.map (filterPart G)) := by
  intro ps
  induction ps with
  | nil =>
      intro qs
      simp only [List.map_nil, partsCostAux]
      rw [List.map_map, List.map_map]
      exact List.sum_le_sum (fun q _ => filterPart_size_mono hle hv q)
  | cons p ps ih =>
      intro qs
      cases qs with
      | nil =>
          simp only [List.map_cons, List.map_nil, partsCostAux]
          have h1 := filterPart_size_mono hle hv p
          have h2 := ih []
          simp only [List.map_nil] at h2
          omega
      | cons q qs =>
          simp only [List.map_cons, partsCostAux]
          have h1 := filterPart_pairCost_mono hle hv p q
          have h2 := ih qs
          omega

theorem keyedCost_nil_nil [DecidableEq κ] (key : α → κ) (pc : α → α → Nat)
    (sz : α → Nat) : keyedCost key pc sz [] [] = 0 := rfl

/-- C6 amended: for filters F1 and F2 with F1 included in F2 and the
same voicing mode, the total symbolic edit cost of the diff under F1
is at most the cost under F2 (removing detail categories can only
remove cost); the number of edit operations, however, is not monotone
(see the counterexample: a cheaper re-alignment can carry fewer
operations). -/
theorem diff_cost_filter_monotone (F G : DetailFilter) (s1 s2 : AnnScore)
    (hle : F.le G) (hv : F.voicing = G.voicing) :
    (filterScore F s1).diffCost (filterScore F s2)
      ≤ (filterScore G s1).diffCost (filterScore G s2) := by
  rw [AnnScore.diffCost, AnnScore.diffCost]
  simp only [filterScore]
  have hmd : keyedCost AnnMetadataItem.key AnnMetadataItem.pairCost
      AnnMetadataItem.notationSize (if F.metadata then s1.metadataItems else [])
      (if F.metadata then s2.metadataItems else [])
      ≤ keyedCost AnnMetadataItem.key AnnMetadataItem.pairCost
        AnnMetadataItem.notationSize (if G.metadata then s1.metadataItems else [])
        (if G.metadata then s2.metadataItems else []) := by
    by_cases hF : F.metadata
    · have hG := bool_le_true _ _ (detailFilter_le_metadata hle) hF
      rw [if_pos hF, if_pos hF, if_pos hG, if_pos hG]
    · rw [if_neg hF, if_neg hF, keyedCost_nil_nil]
      exact Nat.zero_le _
  have hsg : keyedCost AnnStaffGroup.name AnnStaffGroup.pairCost
      AnnStaffGroup.notationSize (if F.staffdetails then s1.staffGroups else [])
      (if F.staffdetails then s2.staffGroups else [])
      ≤ keyedCost AnnStaffGroup.name AnnStaffGroup.pairCost
        AnnStaffGroup.notationSize (if G.staffdetails then s1.staffGroups else [])
        (if G.staffdetails then s2.staffGroups else []) := by
    by_cases hF : F.staffdetails
    · have hG := bool_le_true _ _ (detailFilter_le_staffdetails hle) hF
      rw [if_pos hF, if_pos hF, if_pos hG, if_pos hG]
    · rw [if_neg hF, if_neg hF, keyedCost_nil_nil]
      exact Nat.zero_le _
  have hparts := partsCostAux_map_mono hle hv s1.parts s2.parts
  omega

/-- Witness for diff_cost_filter_monotone at the concrete
counterexample filters and scores: cost 9 under F1 against 13 under
F2. -/
theorem diff_cost_filter_monotone_witness :
    articF1.le articF2 ∧ articF1.voicing = articF2.voicing ∧
    (filterScore articF1 monoScoreA).diffCost (filterScore articF1 monoScoreB)
      ≤ (filterScore articF2 monoScoreA).diffCost (filterScore articF2 monoScoreB) :=
  ⟨by decide, rfl,
    diff_cost_filter_monotone articF1 articF2 monoScoreA monoScoreB (by decide) rfl⟩

end MusicDiff
